import Mathlib

/-!
Verification of the grovebook-editor VS Code extension (`extension.js`).

Strings from the JavaScript source are modelled as `List Char`; maps are
modelled as association lists; the ambient values `os.homedir()` and the
`crypto.randomUUID()` supply are passed as explicit parameters.  Fallible
JavaScript evaluation (property access on `undefined`/`null`, destructuring
of `undefined`) is modelled with `Except`, whose error value records the
kind of `TypeError` the JavaScript engine would raise.
-/

namespace Grovebook

abbrev Str := List Char

/-- JavaScript whitespace as used by `String.prototype.trim`:
the WhiteSpace and LineTerminator code points. -/
def jsWs (c : Char) : Bool :=
  c.val = 9 ∨ c.val = 10 ∨ c.val = 11 ∨ c.val = 12 ∨ c.val = 13 ∨ c.val = 32 ∨
  c.val = 0xA0 ∨ c.val = 0x1680 ∨ (0x2000 ≤ c.val ∧ c.val ≤ 0x200A) ∨
  c.val = 0x2028 ∨ c.val = 0x2029 ∨ c.val = 0x202F ∨ c.val = 0x205F ∨
  c.val = 0x3000 ∨ c.val = 0xFEFF

/-- `String.prototype.trim`: drop JS whitespace from both ends. -/
def jsTrim (s : Str) : Str :=
  ((s.dropWhile jsWs).reverse.dropWhile jsWs).reverse

/-- `Array.prototype.join` / `path` joining with a separator:
`[].join = ""`, `[x].join = x`, otherwise interpose the separator. -/
def joinSep (sep : Str) : List Str → Str
  | [] => []
  | [x] => x
  | x :: y :: xs => x ++ sep ++ joinSep sep (y :: xs)

/-- `String.prototype.split` with a single-character separator,
as in JavaScript: `"".split` gives `[""]`. -/
def splitOnChar (sep : Char) : Str → List Str
  | [] => [[]]
  | c :: rest =>
    let r := splitOnChar sep rest
    if c = sep then [] :: r
    else
      match r with
      | h :: t => (c :: h) :: t
      | [] => [[c]]

/-- Boolean test that `pat` is a prefix of `s`. -/
def hasPre : Str → Str → Bool
  | [], _ => true
  | _ :: _, [] => false
  | p :: ps, c :: cs => p = c && hasPre ps cs

/-- `String.prototype.replace` with a plain-string pattern:
replace the first occurrence only (an empty pattern matches at index 0). -/
def replaceFirst (pat rep : Str) : Str → Str
  | [] => if pat = [] then rep else []
  | c :: cs =>
    if hasPre pat (c :: cs) then rep ++ (c :: cs).drop pat.length
    else c :: replaceFirst pat rep cs

/-- `Array.prototype.indexOf` over a list of strings.  JavaScript yields `-1`
when the element is absent; this model yields the list's length in that case
(the two agree whenever the element is present, which the theorems assume). -/
def idxOfStr (x : Str) : List Str → Nat
  | [] => 0
  | h :: t => if h = x then 0 else idxOfStr x t + 1

/-- Association-list lookup, the model of `Map.prototype.get`. -/
def alookup (k : Str) : List (Str × Nat) → Option Nat
  | [] => none
  | (k', v) :: t => if k' = k then some v else alookup k t

-- ============================================================================
-- Path Utilities (`createLocalFilePath` / `parseLocalFilePath`)
-- ============================================================================

/-- `EXTENSION_WORKING_DIR = ".kineviz-grove"`. -/
def workingDirName : Str := ".kineviz-grove".toList

def schemeSep : Str := "://".toList

/-- `encodeBaseUrl`: `baseUrl.replace("://", "__").replace(/:/g, "_")`. -/
def encodeBaseUrl (baseUrl : Str) : Str :=
  (replaceFirst schemeSep ['_', '_'] baseUrl).map
    (fun c => if c = ':' then '_' else c)

/-- `decodeBaseUrl`: `encodedBaseUrl.replace("__", "://").replace(/_/g, ":")`. -/
def decodeBaseUrl (encodedBaseUrl : Str) : Str :=
  (replaceFirst ['_', '_'] schemeSep encodedBaseUrl).map
    (fun c => if c = '_' then ':' else c)

/-- `encodeFilePath`: `filePath.replaceAll("/", "__")`
(single-character pattern, so a character-wise expansion). -/
def encodeFilePath (filePath : Str) : Str :=
  filePath.flatMap (fun c => if c = '/' then ['_', '_'] else [c])

/-- `decodeFilePath`: `encodedFilePath.replaceAll("__", "/")`,
left-to-right and non-overlapping as in JavaScript. -/
def decodeFilePath : Str → Str
  | [] => []
  | [c] => [c]
  | c :: d :: rest =>
    if c = '_' ∧ d = '_' then '/' :: decodeFilePath rest
    else c :: decodeFilePath (d :: rest)

/-- `createLocalFilePath`: `path.join(os.homedir(), EXTENSION_WORKING_DIR,
encodeBaseUrl(baseUrl), encodeFilePath(filePath))`.  The platform separator is
modelled as `/` and `os.homedir()` is the explicit `homedir` parameter; the
encoded segments contain no separator, so `path.join` is plain interposition. -/
def createLocalFilePath (homedir baseUrl filePath : Str) : Str :=
  joinSep ['/'] [homedir, workingDirName, encodeBaseUrl baseUrl, encodeFilePath filePath]

structure ParsedLocalPath where
  projectId : Str
  fileName : Str
  baseUrl : Str
deriving DecidableEq, Repr

/-- `parseLocalFilePath`: split on the separator, locate the working
directory, decode the next segment as the base URL and the remainder as the
remote file path, then read `projectId` as segment 4 of that path and
`fileName` as the tail from segment 5.  Out-of-range reads (impossible for
paths made by `createLocalFilePath`) yield the empty string where JavaScript
would yield `undefined`. -/
def parseLocalFilePath (localFilePath : Str) : ParsedLocalPath :=
  let splitPath := splitOnChar '/' localFilePath
  let groveIndex := idxOfStr workingDirName splitPath
  let encodedBaseUrl := (splitPath.drop (groveIndex + 1)).headD []
  let baseUrl := decodeBaseUrl encodedBaseUrl
  let encodedFilePath := joinSep ['/'] (splitPath.drop (groveIndex + 2))
  let filePath := decodeFilePath encodedFilePath
  let filePathParts := splitOnChar '/' filePath
  { projectId := (filePathParts.drop 4).headD []
    fileName := joinSep ['/'] (filePathParts.drop 5)
    baseUrl := baseUrl }

-- ============================================================================
-- Grove Version Detection (`isVersionAtLeast`)
-- ============================================================================

/-- `Number(component) || 0` for one dot-separated version component:
an optionally signed run of digits parses as that integer; anything else is
`NaN` (or, for a missing component, `undefined`) and the `|| 0` turns it
into `0`. -/
def versionComponent (parts : List Str) (i : Nat) : Int :=
  match (parts.drop i).headD [] with
  | [] => 0
  | c :: cs =>
    let (sgn, digits) : Int × Str := if c = '-' then (-1, cs) else (1, c :: cs)
    if digits ≠ [] ∧ digits.all Char.isDigit then
      sgn * (Nat.ofDigits 10 ((digits.map (fun d => d.toNat - 48)).reverse) : Int)
    else 0

/-- `isVersionAtLeast(version, minVersion)`: three-component numeric
comparison, major first, missing components read as `0`, equality counting
as at least. -/
def isVersionAtLeast (version minVersion : Str) : Bool :=
  let v := splitOnChar '.' version
  let mn := splitOnChar '.' minVersion
  if versionComponent v 0 > versionComponent mn 0 then true
  else if versionComponent v 0 < versionComponent mn 0 then false
  else if versionComponent v 1 > versionComponent mn 1 then true
  else if versionComponent v 1 < versionComponent mn 1 then false
  else if versionComponent v 2 > versionComponent mn 2 then true
  else if versionComponent v 2 < versionComponent mn 2 then false
  else true

/-- The version `getGroveVersion` falls back to when the probe of
`/api/tempModule/tempModules` fails or reports no Grove module. -/
def defaultGroveVersion : Str := "1.0.0".toList

/-- Lexicographic at-least on integer triples, the specified meaning of the
version gate. -/
def lexGe (a b : Int × Int × Int) : Bool :=
  a.1 > b.1 ∨ (a.1 = b.1 ∧
    (a.2.1 > b.2.1 ∨ (a.2.1 = b.2.1 ∧ a.2.2 ≥ b.2.2)))

/-- The parsed (major, minor, patch) triple of a version string. -/
def versionTriple (s : Str) : Int × Int × Int :=
  let p := splitOnChar '.' s
  (versionComponent p 0, versionComponent p 1, versionComponent p 2)

-- ============================================================================
-- Sync Session State Machine
-- ============================================================================

inductive SyncStatus where
  | synced
  | modified
  | syncing
deriving DecidableEq, Repr

/-- Per-document sync session: the `lastSyncedContent` record for the
document (absent when the document was never downloaded or uploaded in this
session) and the status shown in the status bar. -/
structure SyncSession where
  lastSynced : Option Str
  status : SyncStatus
deriving DecidableEq, Repr

/-- Network operations a handler may perform, in order. -/
inductive NetCall where
  | versionProbe
  | upload
deriving DecidableEq, Repr

/-- `handleDocumentChange` for a managed document with actual content
changes: compare the new content against `lastSyncedContent`; equal (and the
record present) shows Synced, otherwise Modified.  The handler performs no
network operation (it only updates the status bar and, when auto-sync is on,
re-arms a local debounce timer). -/
def handleDocumentChange (st : SyncSession) (newContent : Str) :
    SyncSession × List NetCall :=
  ({ lastSynced := st.lastSynced
     status := if st.lastSynced = some newContent then .synced else .modified },
   [])

inductive SaveOutcome where
  | success
  | failure
deriving DecidableEq, Repr

/-- `handleDocumentSave` for a managed document: status goes to Syncing; a
missing API key aborts (status Modified, no network call); otherwise the
Grove version is probed and the content uploaded — on success the content is
recorded as last-synced and status becomes Synced, on failure status reverts
to Modified with the last-synced record untouched. -/
def handleDocumentSave (st : SyncSession) (content : Str)
    (apiKey : Option Str) (outcome : SaveOutcome) :
    SyncSession × List NetCall :=
  match apiKey with
  | none => ({ lastSynced := st.lastSynced, status := .modified }, [])
  | some _ =>
    match outcome with
    | .success =>
      ({ lastSynced := some content, status := .synced },
       [.versionProbe, .upload])
    | .failure =>
      ({ lastSynced := st.lastSynced, status := .modified },
       [.versionProbe, .upload])

/-- `getSyncStatusForDocument`: Synced exactly when a last-synced record
exists and equals the current content; otherwise Modified. -/
def getSyncStatusForDocument (lastContent : Option Str) (currentContent : Str) :
    SyncStatus :=
  if lastContent ≠ none ∧ lastContent = some currentContent then .synced
  else .modified

-- ============================================================================
-- Socket Management (`connectSocket`)
-- ============================================================================

/-- The socket registry `sockets : Map baseUrl → socket`, with sockets
identified by the order of their creation; `fresh` is the next unused
identifier. -/
structure SocketState where
  registry : List (Str × Nat)
  fresh : Nat
deriving DecidableEq, Repr

/-- `connectSocket(baseUrl)`: return the registered socket when one exists;
otherwise create a new connection, register it and return it.  The returned
`Bool` records whether a new connection was created. -/
def connectSocket (st : SocketState) (baseUrl : Str) :
    Nat × SocketState × Bool :=
  match alookup baseUrl st.registry with
  | some s => (s, st, false)
  | none =>
    (st.fresh,
     { registry := (baseUrl, st.fresh) :: st.registry, fresh := st.fresh + 1 },
     true)

/-- The `disconnect` handler: `sockets.delete(baseUrl)`. -/
def disconnectSocket (st : SocketState) (baseUrl : Str) : SocketState :=
  { registry := st.registry.filter (fun p => p.1 ≠ baseUrl), fresh := st.fresh }

/-- Registry keys are pairwise distinct: at most one connection per origin. -/
def registryKeysUnique (reg : List (Str × Nat)) : Prop :=
  (reg.map Prod.fst).Nodup

end Grovebook

-- ============================================================================
-- Theorems: path codec (support lemmas)
-- ============================================================================

namespace Grovebook

theorem hasPre_eq_true_of_append (pat rest : Str) :
    hasPre pat (pat ++ rest) = true := by
  induction pat with
  | nil => rfl
  | cons p ps ih => simp [hasPre, ih]

theorem hasPre_cons_ne (p c : Char) (ps cs : Str) (h : p ≠ c) :
    hasPre (p :: ps) (c :: cs) = false := by
  simp [hasPre, h]

theorem replaceFirst_append (rep a b : Str) (p0 : Char) (ps : Str)
    (ha : p0 ∉ a) :
    replaceFirst (p0 :: ps) rep (a ++ (p0 :: ps) ++ b) = a ++ rep ++ b := by
  induction a with
  | nil =>
    have h1 : hasPre (p0 :: ps) (p0 :: (ps ++ b)) = true := by
      have := hasPre_eq_true_of_append (p0 :: ps) b
      simpa using this
    have hshape : ([] : Str) ++ (p0 :: ps) ++ b = p0 :: (ps ++ b) := by simp
    rw [hshape]
    simp only [replaceFirst, h1, if_pos]
    simp [List.drop_left]
  | cons x a' ih =>
    have hx : p0 ≠ x := fun hc => ha (hc ▸ List.mem_cons_self x a')
    have ha' : p0 ∉ a' := fun hc => ha (List.mem_cons_of_mem x hc)
    have hshape : (x :: a') ++ (p0 :: ps) ++ b = x :: (a' ++ (p0 :: ps) ++ b) := by
      simp
    rw [hshape]
    simp only [replaceFirst]
    rw [hasPre_cons_ne p0 x ps _ hx]
    simp only [Bool.false_eq_true, if_false]
    rw [ih ha']
    simp

theorem map_id_of_notMem (f : Char → Char) (a : Str)
    (h : ∀ c ∈ a, f c = c) : a.map f = a := by
  induction a with
  | nil => rfl
  | cons x a' ih =>
    simp only [List.map_cons, h x (List.mem_cons_self x a'),
      ih (fun c hc => h c (List.mem_cons_of_mem x hc))]

theorem decodeFilePath_cons_ne (c : Char) (x : Str) (hc : c ≠ '_') :
    decodeFilePath (c :: x) = c :: decodeFilePath x := by
  cases x with
  | nil => rfl
  | cons d ds =>
    simp only [decodeFilePath]
    rw [if_neg (fun hand => hc hand.1)]

theorem decodeFilePath_encodeFilePath (fp : Str) (h : '_' ∉ fp) :
    decodeFilePath (encodeFilePath fp) = fp := by
  induction fp with
  | nil => rfl
  | cons c cs ih =>
    have hc : c ≠ '_' := fun hc => h (hc ▸ List.mem_cons_self c cs)
    have hcs : '_' ∉ cs := fun hm => h (List.mem_cons_of_mem c hm)
    by_cases hslash : c = '/'
    · subst hslash
      have henc : encodeFilePath ('/' :: cs) = '_' :: '_' :: encodeFilePath cs := by
        simp [encodeFilePath]
      rw [henc]
      have hstep : decodeFilePath ('_' :: '_' :: encodeFilePath cs) =
          '/' :: decodeFilePath (encodeFilePath cs) := by
        simp [decodeFilePath]
      rw [hstep, ih hcs]
    · have henc : encodeFilePath (c :: cs) = c :: encodeFilePath cs := by
        simp [encodeFilePath, hslash]
      rw [henc, decodeFilePath_cons_ne c (encodeFilePath cs) hc, ih hcs]

theorem notMem_map_colon (h : Str) (hh : '/' ∉ h) :
    '/' ∉ h.map (fun c => if c = ':' then '_' else c) := by
  intro hmem
  rcases List.mem_map.mp hmem with ⟨a, hmemA, hfa⟩
  by_cases hac : a = ':'
  · simp [hac] at hfa
  · simp [hac] at hfa
    exact hh (hfa ▸ hmemA)

theorem map_colon_under_inverse (h : Str) (hh : '_' ∉ h) :
    (h.map (fun c => if c = ':' then '_' else c)).map
      (fun c => if c = '_' then ':' else c) = h := by
  induction h with
  | nil => rfl
  | cons a t ih =>
    have hat : '_' ∉ t := fun hm => hh (List.mem_cons_of_mem a hm)
    have ha : a ≠ '_' := fun hc => hh (hc ▸ List.mem_cons_self a t)
    by_cases hac : a = ':'
    · simp [hac, ih hat]
    · simp [hac, ha, ih hat]

theorem encodeBaseUrl_split (s h : Str) (hs1 : ':' ∉ s) :
    encodeBaseUrl (s ++ schemeSep ++ h) =
      s ++ ['_', '_'] ++ h.map (fun c => if c = ':' then '_' else c) := by
  have hsep : schemeSep = ':' :: ['/', '/'] := by decide
  unfold encodeBaseUrl
  rw [hsep, replaceFirst_append ['_', '_'] s h ':' ['/', '/'] hs1]
  simp only [List.map_append]
  congr 1
  congr 1
  exact map_id_of_notMem _ s
    (fun c hc => by
      have hne : c ≠ ':' := fun he => hs1 (he ▸ hc)
      simp [hne])

theorem decodeBaseUrl_split (s h : Str) (hs1 : ':' ∉ s) (hs2 : '_' ∉ s)
    (hh1 : '_' ∉ h) :
    decodeBaseUrl (s ++ ['_', '_'] ++
        h.map (fun c => if c = ':' then '_' else c)) =
      s ++ schemeSep ++ h := by
  unfold decodeBaseUrl
  rw [show (['_', '_'] : Str) = '_' :: ['_'] from rfl,
    replaceFirst_append schemeSep s _ '_' ['_'] hs2]
  simp only [List.map_append]
  rw [map_colon_under_inverse h hh1]
  have hms : s.map (fun c => if c = '_' then ':' else c) = s :=
    map_id_of_notMem _ s (fun c hc => by
      have hne : c ≠ '_' := fun he => hs2 (he ▸ hc)
      simp [hne])
  have hmsep : schemeSep.map (fun c => if c = '_' then ':' else c) = schemeSep := by
    decide
  rw [hms, hmsep]

theorem splitOnChar_cons_eq (sep : Char) (rest : Str) :
    splitOnChar sep (sep :: rest) = [] :: splitOnChar sep rest := by
  simp [splitOnChar]

theorem splitOnChar_cons_ne (sep c : Char) (rest : Str) (hc : c ≠ sep) :
    splitOnChar sep (c :: rest) =
      match splitOnChar sep rest with
      | h :: t => (c :: h) :: t
      | [] => [[c]] := by
  simp [splitOnChar, hc]

theorem splitOnChar_ne_nil (sep : Char) (s : Str) : splitOnChar sep s ≠ [] := by
  cases s with
  | nil => simp [splitOnChar]
  | cons c rest =>
    by_cases hc : c = sep
    · subst hc
      rw [splitOnChar_cons_eq]
      simp
    · rw [splitOnChar_cons_ne sep c rest hc]
      cases splitOnChar sep rest <;> simp

theorem splitOnChar_append (sep : Char) (a b : Str) :
    splitOnChar sep (a ++ sep :: b) = splitOnChar sep a ++ splitOnChar sep b := by
  induction a with
  | nil => simp [splitOnChar]
  | cons c a' ih =>
    by_cases hc : c = sep
    · subst hc
      rw [List.cons_append, splitOnChar_cons_eq, splitOnChar_cons_eq, ih]
      simp
    · rw [List.cons_append, splitOnChar_cons_ne sep c _ hc,
        splitOnChar_cons_ne sep c a' hc, ih]
      cases ha' : splitOnChar sep a' with
      | nil => exact absurd ha' (splitOnChar_ne_nil sep a')
      | cons h0 t0 => simp [ha']

theorem splitOnChar_no_sep (sep : Char) (x : Str) (hx : sep ∉ x) :
    splitOnChar sep x = [x] := by
  induction x with
  | nil => rfl
  | cons c t ih =>
    have hc : c ≠ sep := fun he => hx (he ▸ List.mem_cons_self c t)
    have ht : sep ∉ t := fun hm => hx (List.mem_cons_of_mem c hm)
    simp [splitOnChar, hc, ih ht]

theorem idxOfStr_append (x : Str) (l : List Str) (r : List Str)
    (hl : x ∉ l) :
    idxOfStr x (l ++ x :: r) = l.length := by
  induction l with
  | nil => simp [idxOfStr]
  | cons h t ih =>
    have hh : h ≠ x := fun he => hl (he ▸ List.mem_cons_self h t)
    have ht : x ∉ t := fun hm => hl (List.mem_cons_of_mem h hm)
    simp [idxOfStr, hh, ih ht]

theorem drop_len_cons {α : Type} (l : List α) (x : α) (r : List α) :
    (l ++ x :: r).drop (l.length + 1) = r := by
  induction l with
  | nil => simp
  | cons h t ih => simpa using ih

theorem notMem_encodeFilePath (fp : Str) : '/' ∉ encodeFilePath fp := by
  intro hmem
  unfold encodeFilePath at hmem
  rcases List.mem_flatMap.mp hmem with ⟨a, _, hfa⟩
  by_cases hac : a = '/'
  · simp [hac] at hfa
  · simp [hac] at hfa
    exact hac hfa.symm

-- ============================================================================
-- Theorem C4: path codec bijection
-- ============================================================================

/-- C4: the path codec inverts exactly.  For every origin of the shape
`scheme ++ "://" ++ hostport` in which the reserved separator material does
not appear ambiguously — the scheme holds no `:`, `_` or `/`, the host/port
holds no `_` or `/` — and every remote path free of `_`,
`parseLocalFilePath (createLocalFilePath origin path)` recovers the exact
origin, the `projectId` at path segment 4 and the `fileName` rejoined from
segment 5 onwards; instantiated at the representative origins
`http://localhost:3000` and `https://graphxr.kineviz.com` with path
`/api/grove/file/abc123/notebooks/demo` this recovers `projectId = "abc123"`
and `fileName = "notebooks/demo"` (see the witness). -/
theorem parseLocalFilePath_createLocalFilePath
    (homedir s h fp : Str)
    (hs1 : ':' ∉ s) (hs2 : '_' ∉ s) (hs3 : '/' ∉ s)
    (hh1 : '_' ∉ h) (hh2 : '/' ∉ h)
    (hfp : '_' ∉ fp)
    (hhd : workingDirName ∉ splitOnChar '/' homedir) :
    parseLocalFilePath (createLocalFilePath homedir (s ++ schemeSep ++ h) fp) =
      { projectId := ((splitOnChar '/' fp).drop 4).headD []
        fileName := joinSep ['/'] ((splitOnChar '/' fp).drop 5)
        baseUrl := s ++ schemeSep ++ h } := by
  have hWdNoSlash : '/' ∉ workingDirName := by decide
  set e1 := encodeBaseUrl (s ++ schemeSep ++ h) with he1
  set e2 := encodeFilePath fp with he2
  have he1v : e1 = s ++ ['_', '_'] ++
      h.map (fun c => if c = ':' then '_' else c) :=
    encodeBaseUrl_split s h hs1
  have he1NoSlash : '/' ∉ e1 := by
    rw [he1v]
    intro hmem
    rcases List.mem_append.mp hmem with hmem1 | hmem2
    · rcases List.mem_append.mp hmem1 with hin | hin
      · exact hs3 hin
      · simp at hin
    · exact notMem_map_colon h hh2 hmem2
  have he2NoSlash : '/' ∉ e2 := notMem_encodeFilePath fp
  have hjoin : createLocalFilePath homedir (s ++ schemeSep ++ h) fp =
      homedir ++ '/' :: (workingDirName ++ '/' :: (e1 ++ '/' :: e2)) := by
    simp [createLocalFilePath, joinSep, he1, he2]
  have hsp : splitOnChar '/'
      (homedir ++ '/' :: (workingDirName ++ '/' :: (e1 ++ '/' :: e2))) =
      splitOnChar '/' homedir ++ workingDirName :: e1 :: e2 :: [] := by
    rw [splitOnChar_append '/' homedir _, splitOnChar_append '/' workingDirName _,
      splitOnChar_append '/' e1 _,
      splitOnChar_no_sep '/' workingDirName hWdNoSlash,
      splitOnChar_no_sep '/' e1 he1NoSlash,
      splitOnChar_no_sep '/' e2 he2NoSlash]
    simp
  have hdrop1 : (splitOnChar '/' homedir ++ workingDirName :: e1 :: e2 :: []).drop
      ((splitOnChar '/' homedir).length + 1) = e1 :: e2 :: [] :=
    drop_len_cons _ _ _
  have hdrop2 : (splitOnChar '/' homedir ++ workingDirName :: e1 :: e2 :: []).drop
      ((splitOnChar '/' homedir).length + 2) = e2 :: [] := by
    have hre : splitOnChar '/' homedir ++ workingDirName :: e1 :: e2 :: [] =
        (splitOnChar '/' homedir ++ [workingDirName]) ++ e1 :: e2 :: [] := by
      simp
    have hlen : (splitOnChar '/' homedir).length + 2 =
        (splitOnChar '/' homedir ++ [workingDirName]).length + 1 := by
      simp
    rw [hre, hlen, drop_len_cons]
  rw [hjoin]
  simp only [parseLocalFilePath]
  rw [hsp, idxOfStr_append workingDirName (splitOnChar '/' homedir) _ hhd,
    hdrop1, hdrop2]
  simp only [List.headD_cons]
  have hjoinE2 : joinSep ['/'] [e2] = e2 := rfl
  rw [hjoinE2, he2, decodeFilePath_encodeFilePath fp hfp, he1v,
    decodeBaseUrl_split s h hs1 hs2 hh1]

/-- Witness for C4: both representative origins of the claim, each with the
remote path `/api/grove/file/abc123/notebooks/demo`, recover the exact
origin, `projectId = "abc123"` and `fileName = "notebooks/demo"`. -/
theorem parseLocalFilePath_createLocalFilePath_witness :
    parseLocalFilePath (createLocalFilePath ("/home/user".toList)
        ("http://localhost:3000".toList)
        ("/api/grove/file/abc123/notebooks/demo".toList)) =
      { projectId := "abc123".toList
        fileName := "notebooks/demo".toList
        baseUrl := "http://localhost:3000".toList } ∧
    parseLocalFilePath (createLocalFilePath ("/home/user".toList)
        ("https://graphxr.kineviz.com".toList)
        ("/api/grove/file/abc123/notebooks/demo".toList)) =
      { projectId := "abc123".toList
        fileName := "notebooks/demo".toList
        baseUrl := "https://graphxr.kineviz.com".toList } := by
  constructor
  · have hmain := parseLocalFilePath_createLocalFilePath
      ("/home/user".toList) ("http".toList) ("localhost:3000".toList)
      ("/api/grove/file/abc123/notebooks/demo".toList)
      (by decide) (by decide) (by decide) (by decide) (by decide) (by decide)
      (by decide)
    have horig : "http".toList ++ schemeSep ++ "localhost:3000".toList =
        "http://localhost:3000".toList := by decide
    rw [horig] at hmain
    rw [hmain]
    decide
  · have hmain := parseLocalFilePath_createLocalFilePath
      ("/home/user".toList) ("https".toList) ("graphxr.kineviz.com".toList)
      ("/api/grove/file/abc123/notebooks/demo".toList)
      (by decide) (by decide) (by decide) (by decide) (by decide) (by decide)
      (by decide)
    have horig : "https".toList ++ schemeSep ++ "graphxr.kineviz.com".toList =
        "https://graphxr.kineviz.com".toList := by decide
    rw [horig] at hmain
    rw [hmain]
    decide


-- ============================================================================
-- Theorem C5: version gate boundary
-- ============================================================================

theorem isVersionAtLeast_eq_lexGe (v m : Str) :
    isVersionAtLeast v m = lexGe (versionTriple v) (versionTriple m) := by
  simp only [isVersionAtLeast, lexGe, versionTriple]
  split_ifs with h1 h2 h3 h4 h5 h6 <;>
    first
      | exact (decide_eq_true (by omega)).symm
      | exact (decide_eq_false (by omega)).symm

/-- C5: the version gate uses three-component numeric precedence with missing
components read as zero and equality counting as at least:
`isVersionAtLeast` agrees with lexicographic at-least on the parsed
(major, minor, patch) triples; at the claim's boundary, `2.0.0` satisfies a
`2.0.0` minimum (direct-text upload path), `1.9.9` does not (legacy-json
path), and the default version `1.0.0` taken when the probe fails also
selects the legacy-json path. -/
theorem isVersionAtLeast_gate :
    isVersionAtLeast ("2.0.0".toList) ("2.0.0".toList) = true ∧
    isVersionAtLeast ("1.9.9".toList) ("2.0.0".toList) = false ∧
    defaultGroveVersion = "1.0.0".toList ∧
    isVersionAtLeast defaultGroveVersion ("2.0.0".toList) = false ∧
    (∀ v m : Str,
      isVersionAtLeast v m = lexGe (versionTriple v) (versionTriple m)) := by
  refine ⟨by decide, by decide, rfl, by decide, isVersionAtLeast_eq_lexGe⟩

-- ============================================================================
-- Theorem C6: sync state transitions
-- ============================================================================

/-- C6: the sync state machine behaves as specified.  An edit whose content
differs from the last-synced record (or with no record at all) drives the
status to Modified; an edit restoring exactly the last-synced content drives
it to Synced, in both cases with no network call; a save with a credential
whose upload succeeds records the saved content as last-synced with status
Synced; a failed upload, or an abort for a missing credential, leaves the
status Modified with the last-synced record unchanged (and the missing
credential aborts before any network call). -/
theorem syncStateTransitions :
    (∀ (st : SyncSession) (a c : Str), st.lastSynced = some a → c ≠ a →
      handleDocumentChange st c =
        ({ lastSynced := st.lastSynced, status := .modified }, [])) ∧
    (∀ (st : SyncSession) (a : Str), st.lastSynced = some a →
      handleDocumentChange st a =
        ({ lastSynced := st.lastSynced, status := .synced }, [])) ∧
    (∀ (st : SyncSession) (c key : Str),
      handleDocumentSave st c (some key) .success =
        ({ lastSynced := some c, status := .synced },
         [.versionProbe, .upload])) ∧
    (∀ (st : SyncSession) (c key : Str),
      handleDocumentSave st c (some key) .failure =
        ({ lastSynced := st.lastSynced, status := .modified },
         [.versionProbe, .upload])) ∧
    (∀ (st : SyncSession) (c : Str),
      handleDocumentSave st c none .success =
        ({ lastSynced := st.lastSynced, status := .modified }, [])) := by
  refine ⟨?_, ?_, ?_, ?_, ?_⟩
  · intro st a c hls hne
    have hcs : st.lastSynced ≠ some c := by
      rw [hls]
      intro hcontra
      exact hne (Option.some.inj hcontra).symm
    simp [handleDocumentChange, hcs]
  · intro st a hls
    simp [handleDocumentChange, hls]
  · intro st c key
    rfl
  · intro st c key
    rfl
  · intro st c
    rfl

/-- Witness for C6 at the claim's scenario: a session synced at content `A`
moves to Modified on an edit to `B`, back to Synced on an edit restoring
`A` with no network call, to Synced with last-synced `B` on a successful
save of `B`, and stays Modified with last-synced still `A` on a failed or
credential-less save. -/
theorem syncStateTransitions_witness :
    handleDocumentChange
      { lastSynced := some ("A".toList), status := .synced } ("B".toList) =
      ({ lastSynced := some ("A".toList), status := .modified }, []) ∧
    handleDocumentChange
      { lastSynced := some ("A".toList), status := .modified } ("A".toList) =
      ({ lastSynced := some ("A".toList), status := .synced }, []) ∧
    handleDocumentSave
      { lastSynced := some ("A".toList), status := .modified } ("B".toList)
      (some ("key".toList)) .success =
      ({ lastSynced := some ("B".toList), status := .synced },
       [.versionProbe, .upload]) ∧
    handleDocumentSave
      { lastSynced := some ("A".toList), status := .modified } ("B".toList)
      (some ("key".toList)) .failure =
      ({ lastSynced := some ("A".toList), status := .modified },
       [.versionProbe, .upload]) ∧
    handleDocumentSave
      { lastSynced := some ("A".toList), status := .modified } ("B".toList)
      none .success =
      ({ lastSynced := some ("A".toList), status := .modified }, []) := by
  refine ⟨?_, ?_, ?_, ?_, ?_⟩
  · exact syncStateTransitions.1
      { lastSynced := some ("A".toList), status := .synced }
      ("A".toList) ("B".toList) rfl (by decide)
  · exact syncStateTransitions.2.1
      { lastSynced := some ("A".toList), status := .modified }
      ("A".toList) rfl
  · exact syncStateTransitions.2.2.1
      { lastSynced := some ("A".toList), status := .modified }
      ("B".toList) ("key".toList)
  · exact syncStateTransitions.2.2.2.1
      { lastSynced := some ("A".toList), status := .modified }
      ("B".toList) ("key".toList)
  · exact syncStateTransitions.2.2.2.2
      { lastSynced := some ("A".toList), status := .modified }
      ("B".toList)

-- ============================================================================
-- Theorem C8: one socket connection per origin
-- ============================================================================

theorem alookup_none_iff (k : Str) (reg : List (Str × Nat)) :
    alookup k reg = none ↔ k ∉ reg.map Prod.fst := by
  induction reg with
  | nil => simp [alookup]
  | cons p t ih =>
    obtain ⟨k', v⟩ := p
    by_cases hk : k' = k
    · simp [alookup, hk]
    · simp only [alookup, hk, if_false, List.map_cons, List.mem_cons, ih]
      constructor
      · intro hnone hmem
        rcases hmem with he | hm
        · exact hk he.symm
        · exact hnone hm
      · intro hni
        intro hm
        exact hni (Or.inr hm)

/-- C8: the socket registry holds at most one connection per origin.
`connectSocket` on an origin with a registered socket returns that same
socket, leaves the registry untouched and creates no new connection; it
creates and registers a fresh connection exactly when the origin is
unregistered; and key-uniqueness of the registry is preserved both by
`connectSocket` and by the disconnect handler's removal. -/
theorem connectSocket_onePerOrigin :
    (∀ (st : SocketState) (b : Str) (s : Nat),
      alookup b st.registry = some s → connectSocket st b = (s, st, false)) ∧
    (∀ (st : SocketState) (b : Str),
      alookup b st.registry = none →
        connectSocket st b =
          (st.fresh,
           { registry := (b, st.fresh) :: st.registry, fresh := st.fresh + 1 },
           true)) ∧
    (∀ (st : SocketState) (b : Str),
      registryKeysUnique st.registry →
        registryKeysUnique (connectSocket st b).2.1.registry) ∧
    (∀ (st : SocketState) (b : Str),
      registryKeysUnique st.registry →
        registryKeysUnique (disconnectSocket st b).registry) := by
  refine ⟨?_, ?_, ?_, ?_⟩
  · intro st b s hl
    simp [connectSocket, hl]
  · intro st b hl
    simp [connectSocket, hl]
  · intro st b hu
    unfold connectSocket
    cases hl : alookup b st.registry with
    | some s => exact hu
    | none =>
      simp only [registryKeysUnique, List.map_cons, List.nodup_cons]
      exact ⟨(alookup_none_iff b st.registry).mp hl, hu⟩
  · intro st b hu
    unfold disconnectSocket registryKeysUnique
    have hsub : ((st.registry.filter (fun p => p.1 ≠ b)).map Prod.fst).Sublist
        (st.registry.map Prod.fst) :=
      List.Sublist.map Prod.fst (List.filter_sublist st.registry)
    exact List.Nodup.sublist hsub hu

/-- Witness for C8: with `o` registered as socket `7`, a second
`connectSocket o` returns socket `7`, the same registry and no creation;
after `disconnectSocket o` removes the entry, `connectSocket o` creates a
fresh connection; and uniqueness is preserved throughout. -/
theorem connectSocket_onePerOrigin_witness :
    connectSocket
      { registry := [("http://a".toList, 7)], fresh := 8 } ("http://a".toList) =
      (7, { registry := [("http://a".toList, 7)], fresh := 8 }, false) ∧
    connectSocket
      (disconnectSocket
        { registry := [("http://a".toList, 7)], fresh := 8 } ("http://a".toList))
      ("http://a".toList) =
      (8, { registry := [("http://a".toList, 8)], fresh := 9 }, true) ∧
    registryKeysUnique
      (connectSocket
        { registry := [("http://a".toList, 7)], fresh := 8 }
        ("http://a".toList)).2.1.registry := by
  refine ⟨?_, ?_, ?_⟩
  · exact connectSocket_onePerOrigin.1
      { registry := [("http://a".toList, 7)], fresh := 8 }
      ("http://a".toList) 7 (by decide)
  · have hd : disconnectSocket
        { registry := [("http://a".toList, 7)], fresh := 8 }
        ("http://a".toList) = { registry := [], fresh := 8 } := by decide
    rw [hd]
    exact connectSocket_onePerOrigin.2.1
      { registry := [], fresh := 8 } ("http://a".toList) rfl
  · exact connectSocket_onePerOrigin.2.2.1
      { registry := [("http://a".toList, 7)], fresh := 8 }
      ("http://a".toList)
      (by simp [registryKeysUnique])

-- ============================================================================
-- Theorem C10: sync status requires a last-synced record
-- ============================================================================

/-- C10: with no last-synced record, `getSyncStatusForDocument` reports
Modified regardless of the content; it reports Synced exactly when a record
exists and equals the current content. -/
theorem getSyncStatusForDocument_spec :
    (∀ c : Str, getSyncStatusForDocument none c = .modified) ∧
    (∀ (lc : Option Str) (c : Str),
      getSyncStatusForDocument lc c = .synced ↔ lc = some c) := by
  constructor
  · intro c
    simp [getSyncStatusForDocument]
  · intro lc c
    unfold getSyncStatusForDocument
    by_cases hlc : lc = some c
    · have hne : lc ≠ none := by
        rw [hlc]
        simp
      simp [hlc, hne]
    · simp [hlc]

-- ============================================================================
-- JSON values (`JSON.stringify` / `JSON.parse`)
-- ============================================================================

/-- JSON values as produced by `JSON.parse` and fed to `JSON.stringify`.
Numbers keep their source lexeme (no claim ever evaluates one). -/
inductive Json where
  | null
  | jbool (b : Bool)
  | num (lexeme : Str)
  | str (s : Str)
  | arr (elems : List Json)
  | obj (members : List (Str × Json))

def lbrace : Char := '\x7b'

def rbrace : Char := '\x7d'

def hexDig (n : Nat) : Char :=
  match n with
  | 0 => '0' | 1 => '1' | 2 => '2' | 3 => '3' | 4 => '4'
  | 5 => '5' | 6 => '6' | 7 => '7' | 8 => '8' | 9 => '9'
  | 10 => 'a' | 11 => 'b' | 12 => 'c' | 13 => 'd' | 14 => 'e'
  | _ => 'f'

def hexVal (c : Char) : Option Nat :=
  if c.isDigit then some (c.toNat - 48)
  else if 'a' ≤ c ∧ c ≤ 'f' then some (c.toNat - 87)
  else if 'A' ≤ c ∧ c ≤ 'F' then some (c.toNat - 55)
  else none

/-- One character of `JSON.stringify` string quoting: the two characters with
dedicated escapes, the named control escapes, `\u00XX` for the remaining
control characters, everything else verbatim. -/
def escChar (c : Char) : Str :=
  if c = '"' then ['\\', '"']
  else if c = '\\' then ['\\', '\\']
  else if c.toNat = 8 then ['\\', 'b']
  else if c.toNat = 9 then ['\\', 't']
  else if c.toNat = 10 then ['\\', 'n']
  else if c.toNat = 12 then ['\\', 'f']
  else if c.toNat = 13 then ['\\', 'r']
  else if c.toNat < 32 then
    ['\\', 'u', '0', '0', hexDig (c.toNat / 16), hexDig (c.toNat % 16)]
  else [c]

def escapeJson (s : Str) : Str := s.flatMap escChar

mutual

/-- `JSON.stringify` (no indentation, no replacer).  Number values are
re-emitted as their stored lexeme. -/
def jsonStringify : Json → Str
  | .null => "null".toList
  | .jbool true => "true".toList
  | .jbool false => "false".toList
  | .num lexeme => lexeme
  | .str s => '"' :: (escapeJson s ++ ['"'])
  | .arr xs => '[' :: (jsonStringifyElems xs ++ [']'])
  | .obj kvs => lbrace :: (jsonStringifyMembers kvs ++ [rbrace])

def jsonStringifyElems : List Json → Str
  | [] => []
  | [x] => jsonStringify x
  | x :: y :: t => jsonStringify x ++ ',' :: jsonStringifyElems (y :: t)

def jsonStringifyMembers : List (Str × Json) → Str
  | [] => []
  | [(k, v)] => '"' :: (escapeJson k ++ '"' :: ':' :: jsonStringify v)
  | (k, v) :: m :: t =>
    ('"' :: (escapeJson k ++ '"' :: ':' :: jsonStringify v)) ++
      ',' :: jsonStringifyMembers (m :: t)

end

/-- JSON insignificant whitespace. -/
def jsonWsChar (c : Char) : Bool :=
  c = ' ' ∨ c = Char.ofNat 9 ∨ c = Char.ofNat 10 ∨ c = Char.ofNat 13

def skipWs (s : Str) : Str := s.dropWhile jsonWsChar

def escDecode (e : Char) : Option Char :=
  if e = '"' then some '"'
  else if e = '\\' then some '\\'
  else if e = '/' then some '/'
  else if e = 'b' then some (Char.ofNat 8)
  else if e = 'f' then some (Char.ofNat 12)
  else if e = 'n' then some (Char.ofNat 10)
  else if e = 'r' then some (Char.ofNat 13)
  else if e = 't' then some (Char.ofNat 9)
  else none

/-- The body of a JSON string literal, after its opening quote: returns the
decoded characters and the input after the closing quote. -/
def parseJString : Str → Option (Str × Str)
  | [] => none
  | c :: r =>
    if c = '"' then some ([], r)
    else if c = '\\' then
      match r with
      | [] => none
      | e :: r2 =>
        if e = 'u' then
          match r2 with
          | h1 :: h2 :: h3 :: h4 :: r3 =>
            match hexVal h1, hexVal h2, hexVal h3, hexVal h4 with
            | some a, some b, some c4, some d =>
              match parseJString r3 with
              | some (s, rest) =>
                some (Char.ofNat (4096 * a + 256 * b + 16 * c4 + d) :: s, rest)
              | none => none
            | _, _, _, _ => none
          | _ => none
        else
          match escDecode e with
          | some ch =>
            match parseJString r2 with
            | some (s, rest) => some (ch :: s, rest)
            | none => none
          | none => none
    else if c.toNat < 32 then none
    else
      match parseJString r with
      | some (s, rest) => some (c :: s, rest)
      | none => none

def parseFracPart (s : Str) : Option (Str × Str) :=
  match s with
  | '.' :: r =>
    let d := r.takeWhile Char.isDigit
    if d = [] then none else some ('.' :: d, r.dropWhile Char.isDigit)
  | _ => some ([], s)

def parseExpPart (s : Str) : Option (Str × Str) :=
  match s with
  | e :: r =>
    if e = 'e' ∨ e = 'E' then
      let (sg, r2) : Str × Str :=
        match r with
        | '+' :: r3 => (['+'], r3)
        | '-' :: r3 => (['-'], r3)
        | _ => ([], r)
      let d := r2.takeWhile Char.isDigit
      if d = [] then none
      else some (e :: (sg ++ d), r2.dropWhile Char.isDigit)
    else some ([], e :: r)
  | [] => some ([], [])

/-- A JSON number token, kept as its lexeme. -/
def parseNum (s : Str) : Option (Json × Str) :=
  let (sgn, s1) : Str × Str :=
    match s with
    | '-' :: r => (['-'], r)
    | _ => ([], s)
  match s1 with
  | [] => none
  | c :: _ =>
    if ¬ c.isDigit then none
    else
      let ip := s1.takeWhile Char.isDigit
      let s2 := s1.dropWhile Char.isDigit
      if 2 ≤ ip.length ∧ ip.headD '0' = '0' then none
      else
        match parseFracPart s2 with
        | some (fp, s3) =>
          match parseExpPart s3 with
          | some (ep, s4) => some (.num (sgn ++ ip ++ fp ++ ep), s4)
          | none => none
        | none => none

mutual

/-- One JSON value at the head of the input (leading whitespace already
skipped by the caller); the fuel bounds structural nesting and is always
sufficient when it exceeds the input length. -/
def parseValue : Nat → Str → Option (Json × Str)
  | 0, _ => none
  | fuel + 1, s =>
    match s with
    | [] => none
    | c :: r =>
      if c = lbrace then
        match skipWs r with
        | [] => none
        | d :: r2 =>
          if d = rbrace then some (.obj [], r2)
          else
            match parseMembers fuel (d :: r2) with
            | some (kvs, r3) =>
              (match skipWs r3 with
               | e :: r4 => if e = rbrace then some (.obj kvs, r4) else none
               | [] => none)
            | none => none
      else if c = '[' then
        match skipWs r with
        | [] => none
        | d :: r2 =>
          if d = ']' then some (.arr [], r2)
          else
            match parseElems fuel (d :: r2) with
            | some (xs, r3) =>
              (match skipWs r3 with
               | e :: r4 => if e = ']' then some (.arr xs, r4) else none
               | [] => none)
            | none => none
      else if c = '"' then
        match parseJString r with
        | some (str, r2) => some (.str str, r2)
        | none => none
      else
        match s with
        | 't' :: 'r' :: 'u' :: 'e' :: r2 => some (.jbool true, r2)
        | 'f' :: 'a' :: 'l' :: 's' :: 'e' :: r2 => some (.jbool false, r2)
        | 'n' :: 'u' :: 'l' :: 'l' :: r2 => some (.null, r2)
        | _ => parseNum s

def parseMembers : Nat → Str → Option (List (Str × Json) × Str)
  | 0, _ => none
  | fuel + 1, s =>
    match skipWs s with
    | '"' :: r =>
      match parseJString r with
      | some (k, r2) =>
        (match skipWs r2 with
         | ':' :: r3 =>
           match parseValue fuel (skipWs r3) with
           | some (v, r4) =>
             (match skipWs r4 with
              | ',' :: r5 =>
                match parseMembers fuel r5 with
                | some (kvs, r6) => some ((k, v) :: kvs, r6)
                | none => none
              | _ => some ([(k, v)], r4))
           | none => none
         | _ => none)
      | none => none
    | _ => none

def parseElems : Nat → Str → Option (List Json × Str)
  | 0, _ => none
  | fuel + 1, s =>
    match parseValue fuel (skipWs s) with
    | some (v, r) =>
      (match skipWs r with
       | ',' :: r2 =>
         match parseElems fuel r2 with
         | some (xs, r3) => some (v :: xs, r3)
         | none => none
       | _ => some ([v], r))
    | none => none

end

/-- `JSON.parse`: a complete JSON text, allowing surrounding whitespace. -/
def jsonParse (s : Str) : Option Json :=
  match parseValue (s.length + 1) (skipWs s) with
  | some (v, r) => if skipWs r = [] then some v else none
  | none => none

-- ============================================================================
-- JavaScript value coercions used by the converters
-- ============================================================================

/-- The digits of a number lexeme left of any exponent are all zero exactly
when the numeric value is zero. -/
def numLexIsZero (lexeme : Str) : Bool :=
  ((lexeme.takeWhile (fun c => c ≠ 'e' ∧ c ≠ 'E')).filter Char.isDigit).all
    (fun c => c = '0')

/-- JavaScript truthiness of a parsed JSON value. -/
def jsTruthy : Json → Bool
  | .null => false
  | .jbool b => b
  | .num lexeme => ¬ numLexIsZero lexeme
  | .str s => s ≠ []
  | .arr _ => true
  | .obj _ => true

mutual

/-- JavaScript `ToString` on a parsed JSON value, as used by template
interpolation: strings verbatim, numbers as their lexeme, arrays joined
with commas (with `null` rendered empty), objects as `[object Object]`. -/
def jsToString : Json → Str
  | .null => "null".toList
  | .jbool true => "true".toList
  | .jbool false => "false".toList
  | .num lexeme => lexeme
  | .str s => s
  | .arr xs => jsToStringElems xs
  | .obj _ => "[object Object]".toList

def jsToStringElem : Json → Str
  | .null => []
  | j => jsToString j

def jsToStringElems : List Json → Str
  | [] => []
  | [x] => jsToStringElem x
  | x :: y :: t => jsToStringElem x ++ ',' :: jsToStringElems (y :: t)

end

/-- Template interpolation of a possibly-undefined string:
JavaScript renders `undefined` as the literal text `undefined`. -/
def jsTemplate (o : Option Str) : Str := o.getD ("undefined".toList)

def jlookup (k : Str) : List (Str × Json) → Option Json
  | [] => none
  | (k', v) :: t => if k' = k then some v else jlookup k t

/-- JavaScript property access `j.k` on a parsed JSON value: on `null` it
raises a `TypeError`; on an object it looks the key up; on any other value
the properties read here are `undefined`. -/
def jsProp (j : Json) (k : Str) : Except Str (Option Json)
  := match j with
  | .null => .error ("TypeError: Cannot read properties of null".toList)
  | .obj kvs => .ok (jlookup k kvs)
  | _ => .ok none

/-- The nullish coalescing `v ?? dflt`: `null` and `undefined` (an absent
property) fall back to the default. -/
def jsNullish (o : Option Json) (dflt : Json) : Json :=
  match o with
  | some .null => dflt
  | some v => v
  | none => dflt

-- ============================================================================
-- The Grove block document model
-- ============================================================================

/-- `data.codeData` of a `codeTool` block.  The `value` is string-typed per
the server schema; the metadata fields keep their JSON value, since the
markdown decoder copies whatever the metadata comment held; `dname := none`
models the field being absent (`undefined`). -/
structure CodeData where
  value : Str
  pinCode : Json
  dname : Option Json
  codeMode : Json
  hide : Json

/-- The `data` of a block; fields the block's type does not use are absent. -/
structure BlockData where
  codeData : Option CodeData
  level : Option Nat
  text : Option Str

structure Block where
  type : Str
  data : Option BlockData

structure Grove where
  blocks : List Block
  version : Str

-- ============================================================================
-- Format Conversion
-- ============================================================================

/-- `convertCodeModeToMd`: Grove code mode to markdown language tag. -/
def convertCodeModeToMd (codeMode : Str) : Str :=
  if codeMode = "javascript2".toList then "js".toList else codeMode

/-- `convertCodeModeMdToGrove`: markdown language tag back to Grove mode. -/
def convertCodeModeMdToGrove (codeMode : Str) : Str :=
  if codeMode = "js".toList then "javascript2".toList else codeMode

/-- The JavaScript `switch` in `convertCodeModeToMd` compares with `===`, so
a non-string `codeMode` falls through unchanged. -/
def convertCodeModeToMdJ : Json → Json
  | .str s => .str (convertCodeModeToMd s)
  | j => j

/-- The members of the `cellOptions = { pinCode, dname, codeMode, hide }`
object literal, in source order; an absent (`undefined`) `dname` is not a
member, exactly as `JSON.stringify` skips it. -/
def cellFields (cd : CodeData) : List (Str × Json) :=
  ("pinCode".toList, cd.pinCode) ::
    ((match cd.dname with
      | some d => [("dname".toList, d)]
      | none => []) ++
     [("codeMode".toList, cd.codeMode), ("hide".toList, cd.hide)])

/-- `JSON.stringify(cellOptions)`. -/
def stringifyCellOptions (cd : CodeData) : Str :=
  jsonStringify (Json.obj (cellFields cd))

/-- The markdown rendering of one `codeTool` block:
the metadata comment line, then the fenced region. -/
def renderCodeTool (cd : CodeData) : Str :=
  '<' :: '!' :: '-' :: '-' ::
    (stringifyCellOptions cd ++
      '-' :: '-' :: '>' :: '\n' ::
      '`' :: '`' :: '`' ::
        (jsToString (convertCodeModeToMdJ cd.codeMode) ++
          '\n' :: cd.value ++ '\n' :: '`' :: '`' :: '`' :: []))

/-- One step of the `blocks.map` in `convertGroveToMd`.  Reading `data` of a
block without one, or destructuring an absent `codeData`, raises; a
`paragraph` without `text` yields `undefined` (dropped later by the filter);
an unknown block type degrades to `text || ""`. -/
def renderBlock (b : Block) : Except Str (Option Str) :=
  if b.type = "codeTool".toList then
    match b.data with
    | none => .error ("TypeError: Cannot read properties of undefined".toList)
    | some d =>
      match d.codeData with
      | none =>
        .error ("TypeError: Cannot destructure property pinCode of codeData as it is undefined".toList)
      | some cd => .ok (some (renderCodeTool cd))
  else if b.type = "header".toList then
    match b.data with
    | none => .error ("TypeError: Cannot read properties of undefined".toList)
    | some d =>
      .ok (some (List.replicate (d.level.getD 0) '#' ++ ' ' :: jsTemplate d.text))
  else if b.type = "paragraph".toList then
    match b.data with
    | none => .error ("TypeError: Cannot read properties of undefined".toList)
    | some d => .ok d.text
  else
    match b.data with
    | none => .error ("TypeError: Cannot read properties of undefined".toList)
    | some d => .ok (some (d.text.getD []))

/-- `convertGroveToMd`: render every block (a `TypeError` in any rendering
aborts the whole conversion, as the exception propagates out of the `map`),
drop the falsy renderings (`undefined` and the empty string) and join the
rest with one blank line. -/
def convertGroveToMd (grove : Grove) : Except Str Str :=
  match grove.blocks.mapM renderBlock with
  | .error e => .error e
  | .ok rendered =>
    .ok (joinSep ['\n', '\n'] ((rendered.filterMap id).filter (fun s => s ≠ [])))

-- ============================================================================
-- The fenced-region scan of `convertMdToGrove`
-- (the regex `(?:<!--(.*)-->\n)?` ++ three backticks ++ `(\w+)?\n([\s\S]*?)`
--  ++ three backticks, with the `g` flag)
-- ============================================================================

/-- `\w` of the regex: ASCII letters, digits and underscore. -/
def isWordChar (c : Char) : Bool := c.isAlphanum ∨ c = '_'

def tripleTick : Str := ['`', '`', '`']

/-- Whether a run of three backticks occurs anywhere in the text. -/
def hasTripleTick : Str → Bool
  | [] => false
  | c :: rest => hasPre tripleTick (c :: rest) || hasTripleTick rest

/-- Split at the first run of three backticks: the text before it and the
text after it.  `none` when no such run exists. -/
def splitAtTriple : Str → Option (Str × Str)
  | [] => none
  | c :: rest =>
    if hasPre tripleTick (c :: rest) then some ([], (c :: rest).drop 3)
    else
      match splitAtTriple rest with
      | some (pre, post) => some (c :: pre, post)
      | none => none

/-- The leading optional metadata comment `<!--(.*)-->\n`: `(.*)` cannot
cross a newline and is anchored by `-->` immediately before that newline,
so the capture is the first line's interior. -/
def matchCommentAt : Str → Option (Str × Str)
  | '<' :: '!' :: '-' :: '-' :: rest =>
    let line := rest.takeWhile (fun c => c ≠ '\n')
    (match line.reverse with
     | '>' :: '-' :: '-' :: revCom =>
       (match rest.dropWhile (fun c => c ≠ '\n') with
        | '\n' :: r => some (revCom.reverse, r)
        | _ => none)
     | _ => none)
  | _ => none

/-- The fence part: three backticks, an optional word tag (the group is
unset when empty), a newline, then the lazily-matched content up to the
next run of three backticks. -/
def matchFenceAt : Str → Option (Option Str × Str × Str)
  | '`' :: '`' :: '`' :: rest =>
    let tag := rest.takeWhile isWordChar
    (match rest.dropWhile isWordChar with
     | '\n' :: body =>
       (match splitAtTriple body with
        | some (content, after) =>
          some ((if tag = [] then none else some tag), content, after)
        | none => none)
     | _ => none)
  | _ => none

/-- One attempted match of the whole regex at the current position: the
optional-comment branch first and, when it fails, the fence alone. -/
def matchBlockAt (s : Str) : Option (Option Str × Option Str × Str × Str) :=
  match matchCommentAt s with
  | some (com, afterComment) =>
    (match matchFenceAt afterComment with
     | some (tag, content, rest) => some (some com, tag, content, rest)
     | none =>
       match matchFenceAt s with
       | some (tag, content, rest) => some (none, tag, content, rest)
       | none => none)
  | none =>
    match matchFenceAt s with
    | some (tag, content, rest) => some (none, tag, content, rest)
    | none => none

/-- The `exec` loop: find the leftmost match, emit its three capture groups,
continue after it.  The fuel is consumed once per position or match and the
input length always suffices. -/
def scanBlocksFuel : Nat → Str → List (Option Str × Option Str × Str)
  | 0, _ => []
  | _, [] => []
  | fuel + 1, c :: cs =>
    match matchBlockAt (c :: cs) with
    | some (com, tag, content, rest) =>
      (com, tag, content) :: scanBlocksFuel fuel rest
    | none => scanBlocksFuel fuel cs

def scanBlocks (s : Str) : List (Option Str × Option Str × Str) :=
  scanBlocksFuel s.length s

-- ============================================================================
-- `convertMdToGrove`
-- ============================================================================

/-- The `version` literal written on every upload. -/
def groveUploadVersion : Str := "2.19.1".toList

/-- The `cellOptions` object: `{}` when the comment group is unset or empty
(both falsy), otherwise `JSON.parse` of it with parse errors swallowed. -/
def parseCellOptions (com : Option Str) : Json :=
  match com with
  | none => .obj []
  | some cstr =>
    if cstr = [] then .obj []
    else
      match jsonParse cstr with
      | some j => j
      | none => .obj []

/-- The second and third operands of
`convertCodeModeMdToGrove(match[2]) || cellOptions.codeMode || "javascript2"`. -/
def resolveCodeModeFallback (cmField : Option Json) : Json :=
  match cmField with
  | some v => if jsTruthy v then v else .str ("javascript2".toList)
  | none => .str ("javascript2".toList)

/-- The full `codeMode` resolution: the alias-mapped fence tag when the
group is set and the result truthy, then the metadata field when truthy,
then the default. -/
def resolveCodeMode (tag : Option Str) (cmField : Option Json) : Json :=
  match tag with
  | some t =>
    let g := convertCodeModeMdToGrove t
    if g ≠ [] then .str g else resolveCodeModeFallback cmField
  | none => resolveCodeModeFallback cmField

/-- The block-construction loop of `convertMdToGrove` over the scan results.
`n` counts the `crypto.randomUUID()` calls made so far and `uuid` is the
supply of generated identifiers; property reads on a `null` `cellOptions`
raise in source order (`pinCode` first). -/
def mkBlocks (uuid : Nat → Str) :
    List (Option Str × Option Str × Str) → Nat → Except Str (List Block)
  | [], _ => .ok []
  | (com, tag, content) :: ms, n =>
    let cellOptions := parseCellOptions com
    match jsProp cellOptions ("pinCode".toList) with
    | .error e => .error e
    | .ok pinF =>
      match jsProp cellOptions ("dname".toList) with
      | .error e => .error e
      | .ok dnF =>
        match jsProp cellOptions ("codeMode".toList) with
        | .error e => .error e
        | .ok cmF =>
          match jsProp cellOptions ("hide".toList) with
          | .error e => .error e
          | .ok hdF =>
            let generated : Bool :=
              match dnF with
              | some .null => true
              | none => true
              | some _ => false
            let cd : CodeData :=
              { value := jsTrim content
                pinCode := jsNullish pinF (.jbool false)
                dname := some (jsNullish dnF (.str (uuid n)))
                codeMode := resolveCodeMode tag cmF
                hide := jsNullish hdF (.jbool false) }
            match mkBlocks uuid ms (if generated then n + 1 else n) with
            | .error e => .error e
            | .ok bs =>
              .ok ({ type := "codeTool".toList
                     data := some { codeData := some cd, level := none, text := none } } :: bs)

/-- `convertMdToGrove`: scan the text for fenced regions (with optional
metadata comments), build one `codeTool` block per match, and attach the
fixed upload version. -/
def convertMdToGrove (uuid : Nat → Str) (mdContent : Str) : Except Str Grove :=
  match mkBlocks uuid (scanBlocks mdContent) 0 with
  | .error e => .error e
  | .ok bs => .ok { blocks := bs, version := groveUploadVersion }

-- ============================================================================
-- Theorem C2: `convertGroveToMd` is not total
-- ============================================================================

/-- C2 (code bug): `convertGroveToMd` is not total.  On a document whose
single `codeTool` block has a `data` object but no `data.codeData`, the
destructuring `const { pinCode, ... } = block.data.codeData` raises a
`TypeError` instead of degrading to best-effort text — while the claim's
other malformed example, a `paragraph` block whose `data` lacks `text`,
does degrade gracefully (to an empty document). -/
theorem convertGroveToMd_not_total :
    convertGroveToMd
      { blocks := [{ type := "codeTool".toList
                     data := some { codeData := none, level := none, text := none } }]
        version := [] } =
      .error ("TypeError: Cannot destructure property pinCode of codeData as it is undefined".toList) ∧
    convertGroveToMd
      { blocks := [{ type := "paragraph".toList
                     data := some { codeData := none, level := none, text := none } }]
        version := [] } =
      .ok [] := by
  exact ⟨rfl, rfl⟩

-- ============================================================================
-- Theorem C3: the heuristic-parser scenario
-- ============================================================================

/-- The claim's input text
`"# Title\n\nSome text.\n\n` fenced `js` region `console.log(1)` `"`. -/
def c3Input : Str := "# Title\n\nSome text.\n\n```js\nconsole.log(1)\n```".toList

/-- Counterexample for C3: on the claim's input, `convertMdToGrove`
produces exactly one block — of type `codeTool` — not the claimed three
blocks (header, paragraph, codeTool): the heading and paragraph lines are
discarded by the fence-only scan. -/
theorem convertMdToGrove_c3_counterexample :
    (convertMdToGrove (fun _ => ['u']) c3Input).map
        (fun g => g.blocks.map Block.type) =
      .ok ["codeTool".toList] ∧
    ¬ ((convertMdToGrove (fun _ => ['u']) c3Input).map
        (fun g => g.blocks.length) = .ok 3) := by
  constructor
  · rfl
  · intro h
    have : (3 : Nat) = 1 := by
      have h1 : (convertMdToGrove (fun _ => ['u']) c3Input).map
          (fun g => g.blocks.length) = .ok 1 := rfl
      rw [h1] at h
      exact (Except.ok.inj h).symm
    omega

/-- The single block the claim's input actually decodes to. -/
def c3ExpectedBlock (uuid : Nat → Str) : Block :=
  { type := "codeTool".toList
    data := some
      { codeData := some
          { value := "console.log(1)".toList
            pinCode := .jbool false
            dname := some (.str (uuid 0))
            codeMode := .str ("javascript2".toList)
            hide := .jbool false }
        level := none
        text := none } }

/-- C3 as amended: the claim's input decodes to exactly one block, a
`codeTool` with value `console.log(1)`, codeMode `javascript2` (the fence
tag `js` mapped through the alias table), `pinCode` and `hide` false, and a
freshly generated `dname`; the heading and the paragraph are discarded. -/
theorem convertMdToGrove_c3 (uuid : Nat → Str) :
    convertMdToGrove uuid c3Input =
      .ok { blocks := [c3ExpectedBlock uuid], version := groveUploadVersion } := by
  rfl

-- ============================================================================
-- Theorem C7: code-mode alias round-trip
-- ============================================================================

/-- Counterexample for C7: the mode `js` does not round-trip.
`convertCodeModeToMd` passes `js` through unchanged (it is not
`javascript2`), and `convertCodeModeMdToGrove` then maps it to
`javascript2`, a different mode. -/
theorem convertCodeMode_js_counterexample :
    convertCodeModeMdToGrove (convertCodeModeToMd ("js".toList)) =
      "javascript2".toList ∧
    "javascript2".toList ≠ "js".toList := by
  exact ⟨rfl, by decide⟩

theorem codeModeAliasRoundtrip (m : Str) (hm : m ≠ "js".toList) :
    convertCodeModeMdToGrove (convertCodeModeToMd m) = m := by
  by_cases hjs2 : m = "javascript2".toList
  · rw [hjs2]
    rfl
  · unfold convertCodeModeToMd convertCodeModeMdToGrove
    rw [if_neg hjs2, if_neg hm]

/-- C7 as amended: for every mode other than the markdown alias `js`
itself, converting to the markdown tag and back yields the original mode —
in particular `javascript2` round-trips through `js`, and unknown modes pass
through unchanged in both directions. -/
theorem convertCodeMode_roundtrip (m : Str) (hm : m ≠ "js".toList) :
    convertCodeModeMdToGrove (convertCodeModeToMd m) = m :=
  codeModeAliasRoundtrip m hm

/-- Witness for C7's amended round-trip at the unknown mode `python` and at
the known alias source `javascript2`. -/
theorem convertCodeMode_roundtrip_witness :
    convertCodeModeMdToGrove (convertCodeModeToMd ("python".toList)) =
      "python".toList ∧
    convertCodeModeMdToGrove (convertCodeModeToMd ("javascript2".toList)) =
      "javascript2".toList := by
  exact ⟨convertCodeMode_roundtrip ("python".toList) (by decide),
    convertCodeMode_roundtrip ("javascript2".toList) (by decide)⟩

-- ============================================================================
-- Theorem C9: decoded values are trim-stable
-- ============================================================================

theorem dropWhile_dropWhile (p : Char → Bool) (l : Str) :
    (l.dropWhile p).dropWhile p = l.dropWhile p := by
  induction l with
  | nil => rfl
  | cons c t ih =>
    by_cases hc : p c
    · simp [List.dropWhile_cons, hc, ih]
    · simp [List.dropWhile_cons, hc]

theorem dropWhile_append_of_ne_nil (p : Char → Bool) (a b : Str) (d : Char)
    (w : Str) (ha : a.dropWhile p = d :: w) :
    (a ++ b).dropWhile p = d :: w ++ b := by
  induction a with
  | nil => simp at ha
  | cons c t ih =>
    by_cases hc : p c
    · have hstep : (c :: t).dropWhile p = t.dropWhile p := by
        simp [List.dropWhile_cons, hc]
      rw [hstep] at ha
      have hstep2 : (c :: (t ++ b)).dropWhile p = (t ++ b).dropWhile p := by
        simp [List.dropWhile_cons, hc]
      rw [List.cons_append, hstep2]
      exact ih ha
    · have hstep : (c :: t).dropWhile p = c :: t := by
        simp [List.dropWhile_cons, hc]
      rw [hstep] at ha
      obtain ⟨h1, h2⟩ := List.cons.inj ha
      subst h1
      subst h2
      have hstep2 : (c :: (t ++ b)).dropWhile p = c :: (t ++ b) := by
        simp [List.dropWhile_cons, hc]
      rw [List.cons_append, hstep2]

theorem dropWhile_append_of_nil (p : Char → Bool) (a b : Str)
    (ha : a.dropWhile p = []) :
    (a ++ b).dropWhile p = b.dropWhile p := by
  induction a with
  | nil => simp
  | cons c t ih =>
    by_cases hc : p c
    · have hstep : (c :: t).dropWhile p = t.dropWhile p := by
        simp [List.dropWhile_cons, hc]
      rw [hstep] at ha
      have hstep2 : (c :: (t ++ b)).dropWhile p = (t ++ b).dropWhile p := by
        simp [List.dropWhile_cons, hc]
      rw [List.cons_append, hstep2]
      exact ih ha
    · have hstep : (c :: t).dropWhile p = c :: t := by
        simp [List.dropWhile_cons, hc]
      rw [hstep] at ha
      simp at ha

theorem dropWhile_head_false (p : Char → Bool) (l : Str) (d : Char) (w : Str)
    (h : l.dropWhile p = d :: w) : p d = false := by
  induction l with
  | nil => simp at h
  | cons c t ih =>
    by_cases hc : p c
    · have hstep : (c :: t).dropWhile p = t.dropWhile p := by
        simp [List.dropWhile_cons, hc]
      rw [hstep] at h
      exact ih h
    · have hstep : (c :: t).dropWhile p = c :: t := by
        simp [List.dropWhile_cons, hc]
      rw [hstep] at h
      obtain ⟨h1, _⟩ := List.cons.inj h
      rw [← h1]
      simpa using hc

theorem jsTrim_idem (s : Str) : jsTrim (jsTrim s) = jsTrim s := by
  unfold jsTrim
  set u := s.dropWhile jsWs with hu
  set w := u.reverse.dropWhile jsWs with hw
  -- step 1: the left trim of `w.reverse` does nothing
  have hleft : w.reverse.dropWhile jsWs = w.reverse := by
    cases hcase : u with
    | nil =>
      have : w = [] := by
        rw [hw, hcase]
        rfl
      rw [this]
      rfl
    | cons c t =>
      have hc : jsWs c = false :=
        dropWhile_head_false jsWs s c t (by rw [← hu, hcase])
      have hrev : u.reverse = t.reverse ++ [c] := by
        rw [hcase]
        simp
      cases hdw : t.reverse.dropWhile jsWs with
      | nil =>
        have : w = [c] := by
          rw [hw, hrev, dropWhile_append_of_nil jsWs _ _ hdw]
          simp [List.dropWhile_cons, hc]
        rw [this]
        simp [List.dropWhile_cons, hc]
      | cons d ws =>
        have : w = d :: ws ++ [c] := by
          rw [hw, hrev]
          exact dropWhile_append_of_ne_nil jsWs _ _ d ws hdw
        rw [this]
        have hrw : (d :: ws ++ [c]).reverse = c :: (ws.reverse ++ [d]) := by
          simp
        rw [hrw]
        simp [List.dropWhile_cons, hc]
  -- step 2: re-trimming the right does nothing either
  rw [hleft]
  simp only [List.reverse_reverse]
  rw [hw, dropWhile_dropWhile]

theorem mkBlocks_value_trimmed (uuid : Nat → Str)
    (ms : List (Option Str × Option Str × Str)) :
    ∀ (n : Nat) (bs : List Block), mkBlocks uuid ms n = .ok bs →
      ∀ b ∈ bs, ∀ d cd, b.data = some d → d.codeData = some cd →
        cd.value = jsTrim cd.value := by
  induction ms with
  | nil =>
    intro n bs h b hb
    simp only [mkBlocks] at h
    obtain rfl : ([] : List Block) = bs := Except.ok.inj h
    simp at hb
  | cons m t ih =>
    intro n bs h b hb d cd hd hcd
    obtain ⟨com, tag, content⟩ := m
    simp only [mkBlocks] at h
    split at h
    · exact absurd h (by simp)
    · split at h
      · exact absurd h (by simp)
      · split at h
        · exact absurd h (by simp)
        · split at h
          · exact absurd h (by simp)
          · split at h
            · exact absurd h (by simp)
            · rename_i bs' hrec
              obtain rfl := Except.ok.inj h
              rcases List.mem_cons.mp hb with rfl | hmem
              · obtain rfl := Option.some.inj hd
                obtain rfl := Option.some.inj hcd
                exact (jsTrim_idem content).symm
              · exact ih _ bs' hrec b hmem d cd hd hcd
theorem convertMdToGrove_values_trimmed (uuid : Nat → Str) (mdContent : Str)
    (g : Grove) (h : convertMdToGrove uuid mdContent = .ok g) :
    ∀ b ∈ g.blocks, ∀ d cd, b.data = some d → d.codeData = some cd →
      cd.value = jsTrim cd.value := by
  unfold convertMdToGrove at h
  cases hmk : mkBlocks uuid (scanBlocks mdContent) 0 with
  | error e => rw [hmk] at h; simp at h
  | ok bs =>
    rw [hmk] at h
    simp only [] at h
    obtain rfl := Except.ok.inj h
    exact mkBlocks_value_trimmed uuid (scanBlocks mdContent) 0 bs hmk

/-- Witness for C9: on a fenced region whose content carries surrounding
whitespace, the stored value is the trimmed text, equal to its own trim. -/
theorem convertMdToGrove_values_trimmed_witness :
    ∃ g, convertMdToGrove (fun _ => ['w']) ("```\n  spaced  \n```".toList) = .ok g ∧
      ∀ b ∈ g.blocks, ∀ d cd, b.data = some d → d.codeData = some cd →
        cd.value = jsTrim cd.value := by
  refine ⟨_, rfl, ?_⟩
  exact convertMdToGrove_values_trimmed (fun _ => ['w'])
    ("```\n  spaced  \n```".toList) _ rfl

-- ============================================================================
-- Theorem C1: round-trip for code blocks
-- ============================================================================

/-- A block-model `codeTool` block around given code data. -/
def codeToolBlock (cd : CodeData) : Block :=
  { type := "codeTool".toList
    data := some { codeData := some cd, level := none, text := none } }

/-- A document made solely of `codeTool` blocks. -/
def mkCodeDoc (ver : Str) (bs : List CodeData) : Grove :=
  { blocks := bs.map codeToolBlock, version := ver }

def blockCodeMode (b : Block) : Option Json :=
  b.data.bind (fun d => d.codeData.map (fun cd => cd.codeMode))

def c1JsCodeData : CodeData :=
  { value := "x".toList
    pinCode := .jbool false
    dname := some (.str ("d".toList))
    codeMode := .str ("js".toList)
    hide := .jbool false }

/-- The side conditions under which a code block round-trips: the value has
no triple-backtick run and no leading or trailing whitespace; the code mode
is a nonempty word-character string other than the markdown alias `js`
itself; and the metadata fields have their schema types (booleans for
`pinCode`/`hide`, a string — when present — for `dname`). -/
def wfCodeData (cd : CodeData) : Bool :=
  !(hasTripleTick cd.value) &&
  (jsTrim cd.value == cd.value) &&
  (match cd.codeMode with
   | .str m => !(m == []) && m.all isWordChar && !(m == "js".toList)
   | _ => false) &&
  (match cd.pinCode with
   | .jbool _ => true
   | _ => false) &&
  (match cd.hide with
   | .jbool _ => true
   | _ => false) &&
  (match cd.dname with
   | none => true
   | some (.str _) => true
   | some _ => false)

theorem wfCodeData_spec (cd : CodeData) (h : wfCodeData cd = true) :
    hasTripleTick cd.value = false ∧ jsTrim cd.value = cd.value ∧
    (∃ m, cd.codeMode = .str m ∧ m ≠ [] ∧ (∀ c ∈ m, isWordChar c = true) ∧
      m ≠ "js".toList) ∧
    (∃ pb, cd.pinCode = .jbool pb) ∧ (∃ hb, cd.hide = .jbool hb) ∧
    (cd.dname = none ∨ ∃ ds, cd.dname = some (.str ds)) := by
  unfold wfCodeData at h
  simp only [Bool.and_eq_true, Bool.not_eq_true', beq_iff_eq] at h
  obtain ⟨⟨⟨⟨⟨h1, h2⟩, h3⟩, h4⟩, h5⟩, h6⟩ := h
  refine ⟨h1, h2, ?_, ?_, ?_, ?_⟩
  · cases hcm : cd.codeMode with
    | str m =>
      rw [hcm] at h3
      simp only [Bool.and_eq_true, Bool.not_eq_true', beq_iff_eq,
        beq_eq_false_iff_ne, List.all_eq_true] at h3
      exact ⟨m, rfl, h3.1.1, fun c hc => h3.1.2 c hc, h3.2⟩
    | null => rw [hcm] at h3; simp at h3
    | jbool b => rw [hcm] at h3; simp at h3
    | num lx => rw [hcm] at h3; simp at h3
    | arr xs => rw [hcm] at h3; simp at h3
    | obj kvs => rw [hcm] at h3; simp at h3
  · cases hp : cd.pinCode with
    | jbool b => exact ⟨b, rfl⟩
    | null => rw [hp] at h4; simp at h4
    | num lx => rw [hp] at h4; simp at h4
    | str s => rw [hp] at h4; simp at h4
    | arr xs => rw [hp] at h4; simp at h4
    | obj kvs => rw [hp] at h4; simp at h4
  · cases hp : cd.hide with
    | jbool b => exact ⟨b, rfl⟩
    | null => rw [hp] at h5; simp at h5
    | num lx => rw [hp] at h5; simp at h5
    | str s => rw [hp] at h5; simp at h5
    | arr xs => rw [hp] at h5; simp at h5
    | obj kvs => rw [hp] at h5; simp at h5
  · cases hd : cd.dname with
    | none => exact Or.inl rfl
    | some dj =>
      cases hdj : dj with
      | str s => exact Or.inr ⟨s, rfl⟩
      | null => rw [hd, hdj] at h6; simp at h6
      | jbool b => rw [hd, hdj] at h6; simp at h6
      | num lx => rw [hd, hdj] at h6; simp at h6
      | arr xs => rw [hd, hdj] at h6; simp at h6
      | obj kvs => rw [hd, hdj] at h6; simp at h6

-- ============================================================================
-- C1 support: `JSON.parse` recovers what `JSON.stringify` wrote
-- ============================================================================

theorem skipWs_cons_not_ws (c : Char) (r : Str) (hc : jsonWsChar c = false) :
    skipWs (c :: r) = c :: r := by
  simp [skipWs, List.dropWhile_cons, hc]

theorem hexVal_hexDig (n : Nat) (hn : n < 16) : hexVal (hexDig n) = some n := by
  interval_cases n <;> decide

theorem parseJString_quote (r : Str) : parseJString ('"' :: r) = some ([], r) := by
  rw [parseJString.eq_def]
  simp

theorem parseJString_step_quote (x : Str) :
    parseJString ('\\' :: '"' :: x) =
      (match parseJString x with
       | some (s, rest) => some ('"' :: s, rest)
       | none => none) := by
  rw [parseJString.eq_def]
  simp [escDecode]

theorem parseJString_step_backslash (x : Str) :
    parseJString ('\\' :: '\\' :: x) =
      (match parseJString x with
       | some (s, rest) => some ('\\' :: s, rest)
       | none => none) := by
  rw [parseJString.eq_def]
  simp [escDecode]

theorem parseJString_step_b (x : Str) :
    parseJString ('\\' :: 'b' :: x) =
      (match parseJString x with
       | some (s, rest) => some (Char.ofNat 8 :: s, rest)
       | none => none) := by
  rw [parseJString.eq_def]
  simp [escDecode]

theorem parseJString_step_t (x : Str) :
    parseJString ('\\' :: 't' :: x) =
      (match parseJString x with
       | some (s, rest) => some (Char.ofNat 9 :: s, rest)
       | none => none) := by
  rw [parseJString.eq_def]
  simp [escDecode]

theorem parseJString_step_n (x : Str) :
    parseJString ('\\' :: 'n' :: x) =
      (match parseJString x with
       | some (s, rest) => some (Char.ofNat 10 :: s, rest)
       | none => none) := by
  rw [parseJString.eq_def]
  simp [escDecode]

theorem parseJString_step_f (x : Str) :
    parseJString ('\\' :: 'f' :: x) =
      (match parseJString x with
       | some (s, rest) => some (Char.ofNat 12 :: s, rest)
       | none => none) := by
  rw [parseJString.eq_def]
  simp [escDecode]

theorem parseJString_step_r (x : Str) :
    parseJString ('\\' :: 'r' :: x) =
      (match parseJString x with
       | some (s, rest) => some (Char.ofNat 13 :: s, rest)
       | none => none) := by
  rw [parseJString.eq_def]
  simp [escDecode]

theorem parseJString_step_u (h3c h4c : Char) (a b : Nat)
    (hx : hexVal h3c = some a) (hy : hexVal h4c = some b) (x : Str) :
    parseJString ('\\' :: 'u' :: '0' :: '0' :: h3c :: h4c :: x) =
      (match parseJString x with
       | some (s, rest) => some (Char.ofNat (16 * a + b) :: s, rest)
       | none => none) := by
  have hstep : parseJString ('\\' :: 'u' :: '0' :: '0' :: h3c :: h4c :: x) =
      (match hexVal '0', hexVal '0', hexVal h3c, hexVal h4c with
       | some a1, some b1, some c1, some d1 =>
         (match parseJString x with
          | some (s, rest) =>
            some (Char.ofNat (4096 * a1 + 256 * b1 + 16 * c1 + d1) :: s, rest)
          | none => none)
       | _, _, _, _ => none) := by
    rw [parseJString.eq_def]
    simp
  have h0 : hexVal '0' = some 0 := rfl
  rw [hstep, h0, hx, hy]
  have harith : 4096 * 0 + 256 * 0 + 16 * a + b = 16 * a + b := by omega
  simp only [harith]

theorem parseJString_step_plain (c : Char) (hq : c ≠ '"') (hb : c ≠ '\\')
    (hc : ¬ c.toNat < 32) (x : Str) :
    parseJString (c :: x) =
      (match parseJString x with
       | some (s, rest) => some (c :: s, rest)
       | none => none) := by
  rw [parseJString.eq_def]
  split
  · rename_i heq
    simp at heq
  · rename_i c0 r0 heq
    obtain ⟨rfl, rfl⟩ := List.cons.inj heq
    rw [if_neg hq, if_neg hb, if_neg hc]

theorem parseJString_escape (s rest : Str) :
    parseJString (escapeJson s ++ '"' :: rest) = some (s, rest) := by
  induction s with
  | nil =>
    have h : escapeJson [] ++ '"' :: rest = '"' :: rest := by simp [escapeJson]
    rw [h, parseJString_quote]
  | cons c s' ih =>
    have hesc : escapeJson (c :: s') ++ '"' :: rest =
        escChar c ++ (escapeJson s' ++ '"' :: rest) := by
      simp [escapeJson]
    rw [hesc]
    unfold escChar
    split_ifs with h1 h2 h3 h4 h5 h6 h7 h8
    · subst h1
      simp only [List.cons_append, List.nil_append]
      rw [parseJString_step_quote, ih]
    · subst h2
      simp only [List.cons_append, List.nil_append]
      rw [parseJString_step_backslash, ih]
    · have hcv : c = Char.ofNat 8 := by rw [← Char.ofNat_toNat c, h3]
      simp only [List.cons_append, List.nil_append]
      rw [parseJString_step_b, ih, hcv]
    · have hcv : c = Char.ofNat 9 := by rw [← Char.ofNat_toNat c, h4]
      simp only [List.cons_append, List.nil_append]
      rw [parseJString_step_t, ih, hcv]
    · have hcv : c = Char.ofNat 10 := by rw [← Char.ofNat_toNat c, h5]
      simp only [List.cons_append, List.nil_append]
      rw [parseJString_step_n, ih, hcv]
    · have hcv : c = Char.ofNat 12 := by rw [← Char.ofNat_toNat c, h6]
      simp only [List.cons_append, List.nil_append]
      rw [parseJString_step_f, ih, hcv]
    · have hcv : c = Char.ofNat 13 := by rw [← Char.ofNat_toNat c, h7]
      simp only [List.cons_append, List.nil_append]
      rw [parseJString_step_r, ih, hcv]
    · have hdiv : c.toNat / 16 < 16 := by omega
      have hmod : c.toNat % 16 < 16 := by omega
      simp only [List.cons_append, List.nil_append]
      rw [parseJString_step_u (hexDig (c.toNat / 16)) (hexDig (c.toNat % 16))
        (c.toNat / 16) (c.toNat % 16) (hexVal_hexDig _ hdiv)
        (hexVal_hexDig _ hmod), ih]
      have hval : 16 * (c.toNat / 16) + c.toNat % 16 = c.toNat := by omega
      rw [hval, Char.ofNat_toNat]
    · simp only [List.cons_append, List.nil_append]
      rw [parseJString_step_plain c h1 h2 h8, ih]

def bstr (b : Bool) : Str := if b then "true".toList else "false".toList

theorem jsonStringify_jbool (b : Bool) : jsonStringify (.jbool b) = bstr b := by
  cases b <;> rfl

/-- The only value shapes the cell-options object ever holds under the
round-trip side conditions. -/
def ScalarJson (v : Json) : Prop :=
  (∃ b, v = .jbool b) ∨ (∃ s, v = .str s)

theorem parseValue_succ_str (f : Nat) (v rest : Str) :
    parseValue (f + 1) ('"' :: (escapeJson v ++ '"' :: rest)) =
      some (.str v, rest) := by
  rw [show f + 1 = Nat.succ f from rfl, parseValue.eq_def]
  simp [lbrace, parseJString_escape]

theorem parseValue_succ_true (f : Nat) (rest : Str) :
    parseValue (f + 1) ('t' :: 'r' :: 'u' :: 'e' :: rest) =
      some (.jbool true, rest) := by
  rw [show f + 1 = Nat.succ f from rfl, parseValue.eq_def]
  simp [lbrace]

theorem parseValue_succ_false (f : Nat) (rest : Str) :
    parseValue (f + 1) ('f' :: 'a' :: 'l' :: 's' :: 'e' :: rest) =
      some (.jbool false, rest) := by
  rw [show f + 1 = Nat.succ f from rfl, parseValue.eq_def]
  simp [lbrace]

theorem parseMembers_last (f : Nat) (k : Str) (v : Json) (hv : ScalarJson v) :
    parseMembers (f + 2)
        ('"' :: (escapeJson k ++ '"' :: ':' :: (jsonStringify v ++ [rbrace]))) =
      some ([(k, v)], [rbrace]) := by
  rcases hv with ⟨b, rfl⟩ | ⟨sv, rfl⟩
  · cases b <;>
      (rw [show f + 2 = Nat.succ (f + 1) from by omega, parseMembers.eq_def]
       simp [skipWs, jsonWsChar, lbrace, rbrace, parseJString_escape,
         parseValue_succ_true, parseValue_succ_false, jsonStringify])
  · rw [show f + 2 = Nat.succ (f + 1) from by omega, parseMembers.eq_def]
    simp [skipWs, jsonWsChar, lbrace, rbrace, parseJString_escape,
      parseValue_succ_str, jsonStringify]

theorem parseMembers_more (f : Nat) (k : Str) (v : Json) (hv : ScalarJson v)
    (rest : Str) :
    parseMembers (f + 2)
        ('"' :: (escapeJson k ++ '"' :: ':' :: (jsonStringify v ++ ',' :: rest))) =
      (match parseMembers (f + 1) rest with
       | some (kvs, r) => some ((k, v) :: kvs, r)
       | none => none) := by
  rcases hv with ⟨b, rfl⟩ | ⟨sv, rfl⟩
  · cases b <;>
      (rw [show f + 2 = Nat.succ (f + 1) from by omega, parseMembers.eq_def]
       simp [skipWs, jsonWsChar, lbrace, rbrace, parseJString_escape,
         parseValue_succ_true, parseValue_succ_false, jsonStringify])
  · rw [show f + 2 = Nat.succ (f + 1) from by omega, parseMembers.eq_def]
    simp [skipWs, jsonWsChar, lbrace, rbrace, parseJString_escape,
      parseValue_succ_str, jsonStringify]

theorem jsonStringifyMembers_single (k : Str) (v : Json) :
    jsonStringifyMembers [(k, v)] =
      '"' :: (escapeJson k ++ '"' :: ':' :: jsonStringify v) := by
  rw [jsonStringifyMembers.eq_def]

theorem jsonStringifyMembers_cons (k : Str) (v : Json) (m : Str × Json)
    (t : List (Str × Json)) :
    jsonStringifyMembers ((k, v) :: m :: t) =
      ('"' :: (escapeJson k ++ '"' :: ':' :: jsonStringify v)) ++
        ',' :: jsonStringifyMembers (m :: t) := by
  rw [jsonStringifyMembers.eq_def]

theorem parseMembers_chain (t : List (Str × Json)) :
    ∀ (k : Str) (v : Json) (f : Nat), ScalarJson v →
      (∀ kv ∈ t, ScalarJson kv.2) → t.length + 2 ≤ f + 2 →
      parseMembers (f + 2) (jsonStringifyMembers ((k, v) :: t) ++ [rbrace]) =
        some ((k, v) :: t, [rbrace]) := by
  induction t with
  | nil =>
    intro k v f hv _ _
    rw [jsonStringifyMembers_single]
    have hshape : ('"' :: (escapeJson k ++ '"' :: ':' :: jsonStringify v)) ++ [rbrace] =
        '"' :: (escapeJson k ++ '"' :: ':' :: (jsonStringify v ++ [rbrace])) := by
      simp
    rw [hshape, parseMembers_last f k v hv]
  | cons m t' ih =>
    intro k v f hv ht hf
    obtain ⟨mk, mv⟩ := m
    rw [jsonStringifyMembers_cons]
    have hshape :
        (('"' :: (escapeJson k ++ '"' :: ':' :: jsonStringify v)) ++
          ',' :: jsonStringifyMembers ((mk, mv) :: t')) ++ [rbrace] =
        '"' :: (escapeJson k ++ '"' :: ':' ::
          (jsonStringify v ++ ',' :: (jsonStringifyMembers ((mk, mv) :: t') ++ [rbrace]))) := by
      simp
    rw [hshape]
    have hflen : 1 ≤ f := by
      simp only [List.length_cons] at hf
      omega
    obtain ⟨f1, rfl⟩ : ∃ f1, f = f1 + 1 := ⟨f - 1, by omega⟩
    rw [parseMembers_more (f1 + 1) k v hv]
    have hrec : parseMembers (f1 + 2)
        (jsonStringifyMembers ((mk, mv) :: t') ++ [rbrace]) =
        some ((mk, mv) :: t', [rbrace]) := by
      apply ih mk mv f1 (ht (mk, mv) (List.mem_cons_self _ _))
        (fun kv hkv => ht kv (List.mem_cons_of_mem _ hkv))
      simp only [List.length_cons] at hf ⊢
      omega
    rw [show f1 + 1 + 1 = f1 + 2 from by omega, hrec]

theorem jsonStringify_obj (kvs : List (Str × Json)) :
    jsonStringify (.obj kvs) = lbrace :: (jsonStringifyMembers kvs ++ [rbrace]) := by
  rw [jsonStringify.eq_def]

theorem jsonStringifyMembers_head_quote (k : Str) (v : Json)
    (t : List (Str × Json)) :
    ∃ x, jsonStringifyMembers ((k, v) :: t) = '"' :: x := by
  cases t with
  | nil => exact ⟨_, jsonStringifyMembers_single k v⟩
  | cons m t' =>
    obtain ⟨mk, mv⟩ := m
    refine ⟨(escapeJson k ++ '"' :: ':' :: jsonStringify v) ++
      ',' :: jsonStringifyMembers ((mk, mv) :: t'), ?_⟩
    rw [jsonStringifyMembers_cons, List.cons_append]

theorem parseValue_obj_members (f : Nat) (k : Str) (v : Json)
    (t : List (Str × Json)) (hv : ScalarJson v)
    (ht : ∀ kv ∈ t, ScalarJson kv.2) (hf : t.length + 2 ≤ f + 2) :
    parseValue (f + 3) (jsonStringify (.obj ((k, v) :: t))) =
      some (.obj ((k, v) :: t), []) := by
  rw [jsonStringify_obj]
  obtain ⟨x, hx⟩ := jsonStringifyMembers_head_quote k v t
  rw [show f + 3 = Nat.succ (f + 2) from by omega, parseValue.eq_def]
  rw [hx]
  simp only [List.cons_append]
  have hws : skipWs ('"' :: (x ++ [rbrace])) = '"' :: (x ++ [rbrace]) :=
    skipWs_cons_not_ws _ _ (by decide)
  simp only [lbrace, rbrace] at hws ⊢
  simp only [hws]
  have hchain := parseMembers_chain t k v f hv ht hf
  rw [hx] at hchain
  simp only [List.cons_append, lbrace, rbrace] at hchain
  simp [hchain, skipWs, jsonWsChar]

theorem jsonStringifyMembers_length_ge (ms : List (Str × Json)) :
    ms.length ≤ (jsonStringifyMembers ms).length := by
  induction ms with
  | nil => exact Nat.zero_le _
  | cons kv t ih =>
    obtain ⟨k, v⟩ := kv
    cases t with
    | nil =>
      rw [jsonStringifyMembers_single]
      simp
    | cons m t' =>
      rw [jsonStringifyMembers_cons]
      simp only [List.length_cons, List.length_append] at ih ⊢
      omega

theorem jsonParse_stringify_obj (k : Str) (v : Json) (t : List (Str × Json))
    (hv : ScalarJson v) (ht : ∀ kv ∈ t, ScalarJson kv.2) :
    jsonParse (jsonStringify (.obj ((k, v) :: t))) = some (.obj ((k, v) :: t)) := by
  have hS : jsonStringify (.obj ((k, v) :: t)) =
      lbrace :: (jsonStringifyMembers ((k, v) :: t) ++ [rbrace]) :=
    jsonStringify_obj _
  have hlenMembers := jsonStringifyMembers_length_ge ((k, v) :: t)
  have hlen : (jsonStringify (.obj ((k, v) :: t))).length =
      (jsonStringifyMembers ((k, v) :: t)).length + 2 := by
    rw [hS]
    simp
  unfold jsonParse
  have hskip : skipWs (jsonStringify (.obj ((k, v) :: t))) =
      jsonStringify (.obj ((k, v) :: t)) := by
    rw [hS]
    exact skipWs_cons_not_ws _ _ (by decide)
  rw [hskip]
  obtain ⟨f, hf⟩ : ∃ f, (jsonStringify (.obj ((k, v) :: t))).length + 1 = f + 3 := by
    refine ⟨(jsonStringifyMembers ((k, v) :: t)).length, ?_⟩
    omega
  rw [hf]
  have hfcond : t.length + 2 ≤ f + 2 := by
    have : f = (jsonStringifyMembers ((k, v) :: t)).length := by omega
    simp only [List.length_cons] at hlenMembers
    omega
  rw [parseValue_obj_members f k v t hv ht hfcond]
  rfl

theorem stringifyCellOptions_ne_nil (cd : CodeData) :
    stringifyCellOptions cd ≠ [] := by
  unfold stringifyCellOptions
  rw [jsonStringify_obj]
  simp

theorem parseCellOptions_stringify (cd : CodeData)
    (hpin : ScalarJson cd.pinCode) (hcm : ScalarJson cd.codeMode)
    (hhide : ScalarJson cd.hide)
    (hdn : cd.dname = none ∨ ∃ d, cd.dname = some d ∧ ScalarJson d) :
    parseCellOptions (some (stringifyCellOptions cd)) = Json.obj (cellFields cd) := by
  have hfields : ∃ t, cellFields cd = ("pinCode".toList, cd.pinCode) :: t ∧
      ∀ kv ∈ t, ScalarJson kv.2 := by
    rcases hdn with hdn | ⟨d, hdn, hd⟩
    · refine ⟨[("codeMode".toList, cd.codeMode), ("hide".toList, cd.hide)], ?_, ?_⟩
      · simp [cellFields, hdn]
      · intro kv hkv
        rcases List.mem_cons.mp hkv with rfl | hkv
        · exact hcm
        · rcases List.mem_cons.mp hkv with rfl | hkv
          · exact hhide
          · simp at hkv
    · refine ⟨[("dname".toList, d), ("codeMode".toList, cd.codeMode),
        ("hide".toList, cd.hide)], ?_, ?_⟩
      · simp [cellFields, hdn]
      · intro kv hkv
        rcases List.mem_cons.mp hkv with rfl | hkv
        · exact hd
        · rcases List.mem_cons.mp hkv with rfl | hkv
          · exact hcm
          · rcases List.mem_cons.mp hkv with rfl | hkv
            · exact hhide
            · simp at hkv
  obtain ⟨t, hfe, hts⟩ := hfields
  have hstep : parseCellOptions (some (stringifyCellOptions cd)) =
      (match jsonParse (stringifyCellOptions cd) with
       | some j => j
       | none => .obj []) := by
    rw [parseCellOptions.eq_def]
    simp [stringifyCellOptions_ne_nil cd]
  rw [hstep]
  unfold stringifyCellOptions
  rw [hfe, jsonParse_stringify_obj ("pinCode".toList) cd.pinCode t hpin hts]

-- ============================================================================
-- C1 support: the fence scan on rendered code blocks
-- ============================================================================

theorem takeWhile_middle (p : Char → Bool) (a : Str) (x : Char) (b : Str)
    (ha : ∀ c ∈ a, p c = true) (hx : p x = false) :
    (a ++ x :: b).takeWhile p = a := by
  induction a with
  | nil => simp [List.takeWhile_cons, hx]
  | cons c t ih =>
    have hc : p c = true := ha c (List.mem_cons_self c t)
    simp only [List.cons_append, List.takeWhile_cons, hc, if_pos]
    rw [ih (fun c' hc' => ha c' (List.mem_cons_of_mem c hc'))]

theorem dropWhile_middle (p : Char → Bool) (a : Str) (x : Char) (b : Str)
    (ha : ∀ c ∈ a, p c = true) (hx : p x = false) :
    (a ++ x :: b).dropWhile p = x :: b := by
  induction a with
  | nil => simp [List.dropWhile_cons, hx]
  | cons c t ih =>
    have hc : p c = true := ha c (List.mem_cons_self c t)
    simp only [List.cons_append, List.dropWhile_cons, hc, if_pos]
    exact ih (fun c' hc' => ha c' (List.mem_cons_of_mem c hc'))

theorem matchCommentAt_shape (j r : Str) (hj : '\n' ∉ j) :
    matchCommentAt ('<' :: '!' :: '-' :: '-' ::
        (j ++ '-' :: '-' :: '>' :: '\n' :: r)) = some (j, r) := by
  have hmem : ∀ c ∈ j ++ ['-', '-', '>'], (fun c => decide (c ≠ '\n')) c = true := by
    intro c hc
    rcases List.mem_append.mp hc with hc | hc
    · simp only [decide_eq_true_eq]
      exact fun he => hj (he ▸ hc)
    · have hc3 : c = '-' ∨ c = '-' ∨ c = '>' := by simpa using hc
      rcases hc3 with rfl | rfl | rfl <;> decide
  have hsh : j ++ '-' :: '-' :: '>' :: '\n' :: r =
      (j ++ ['-', '-', '>']) ++ '\n' :: r := by simp
  have htw : (j ++ '-' :: '-' :: '>' :: '\n' :: r).takeWhile
      (fun c => decide (c ≠ '\n')) = j ++ ['-', '-', '>'] := by
    rw [hsh]
    exact takeWhile_middle _ _ '\n' r hmem (by decide)
  have hdw : (j ++ '-' :: '-' :: '>' :: '\n' :: r).dropWhile
      (fun c => decide (c ≠ '\n')) = '\n' :: r := by
    rw [hsh]
    exact dropWhile_middle _ _ '\n' r hmem (by decide)
  rw [matchCommentAt.eq_def]
  simp only [htw, hdw]
  have hrev : (j ++ ['-', '-', '>']).reverse = '>' :: '-' :: '-' :: j.reverse := by
    simp
  rw [hrev]
  simp

theorem takeWhile_word_tag (tag : Str) (rest : Str)
    (htag : ∀ c ∈ tag, isWordChar c = true) :
    (tag ++ '\n' :: rest).takeWhile isWordChar = tag :=
  takeWhile_middle isWordChar tag '\n' rest htag (by decide)

theorem dropWhile_word_tag (tag : Str) (rest : Str)
    (htag : ∀ c ∈ tag, isWordChar c = true) :
    (tag ++ '\n' :: rest).dropWhile isWordChar = '\n' :: rest :=
  dropWhile_middle isWordChar tag '\n' rest htag (by decide)

theorem hasPre_triple_within (c : Char) (a b : Str)
    (h : hasPre tripleTick (c :: (a ++ '`' :: '`' :: '`' :: b)) = true) :
    hasPre tripleTick (c :: (a ++ ['`', '`'])) = true := by
  cases a with
  | nil =>
    simp [tripleTick, hasPre] at h ⊢
    exact h
  | cons d a' =>
    cases a' with
    | nil =>
      simp [tripleTick, hasPre] at h ⊢
      exact h
    | cons e a'' =>
      simp [tripleTick, hasPre] at h ⊢
      exact h

theorem hasTripleTick_cons (c : Char) (rest : Str) :
    hasTripleTick (c :: rest) =
      (hasPre tripleTick (c :: rest) || hasTripleTick rest) := by
  rw [hasTripleTick.eq_def]

theorem splitAtTriple_exact (a b : Str)
    (ha : hasTripleTick (a ++ ['`', '`']) = false) :
    splitAtTriple (a ++ '`' :: '`' :: '`' :: b) = some (a, b) := by
  induction a with
  | nil =>
    rw [splitAtTriple.eq_def]
    simp [tripleTick, hasPre]
  | cons c a' ih =>
    have hstep : hasTripleTick ((c :: a') ++ ['`', '`']) =
        (hasPre tripleTick (c :: (a' ++ ['`', '`'])) ||
          hasTripleTick (a' ++ ['`', '`'])) := by
      rw [List.cons_append, hasTripleTick_cons]
    rw [hstep] at ha
    simp only [Bool.or_eq_false_iff] at ha
    have hnp : hasPre tripleTick (c :: (a' ++ '`' :: '`' :: '`' :: b)) = false := by
      cases hcase : hasPre tripleTick (c :: (a' ++ '`' :: '`' :: '`' :: b)) with
      | false => rfl
      | true => exact absurd (hasPre_triple_within c a' b hcase) (by simp [ha.1])
    rw [List.cons_append, splitAtTriple.eq_def]
    simp only [hnp, Bool.false_eq_true, if_false]
    rw [ih ha.2]

theorem hasTripleTick_nl_append (v : Str) (hv : hasTripleTick v = false) :
    hasTripleTick (v ++ ['\n', '`', '`']) = false := by
  induction v with
  | nil => decide
  | cons c v' ih =>
    rw [hasTripleTick_cons] at hv
    simp only [Bool.or_eq_false_iff] at hv
    rw [List.cons_append, hasTripleTick_cons]
    simp only [Bool.or_eq_false_iff]
    refine ⟨?_, ih hv.2⟩
    cases v' with
    | nil => simp [tripleTick, hasPre]
    | cons d v'' =>
      cases v'' with
      | nil => simp [tripleTick, hasPre]
      | cons e v''' =>
        have hp := hv.1
        simp [tripleTick, hasPre] at hp ⊢
        exact hp

theorem hasTripleTick_value_tail (v : Str) (hv : hasTripleTick v = false) :
    hasTripleTick ((v ++ ['\n']) ++ ['`', '`']) = false := by
  have hsh : (v ++ ['\n']) ++ ['`', '`'] = v ++ ['\n', '`', '`'] := by simp
  rw [hsh]
  exact hasTripleTick_nl_append v hv

theorem hexDig_ne_nl (n : Nat) : hexDig n ≠ '\n' := by
  unfold hexDig
  split <;> decide

theorem nl_not_mem_escChar (c : Char) : '\n' ∉ escChar c := by
  unfold escChar
  split_ifs with h1 h2 h3 h4 h5 h6 h7 h8
  · decide
  · decide
  · decide
  · decide
  · decide
  · decide
  · decide
  · intro hm
    simp only [List.mem_cons] at hm
    rcases hm with hm | hm | hm | hm | hm | hm | hm
    · exact absurd hm (by decide)
    · exact absurd hm (by decide)
    · exact absurd hm (by decide)
    · exact absurd hm (by decide)
    · exact hexDig_ne_nl _ hm.symm
    · exact hexDig_ne_nl _ hm.symm
    · exact absurd hm (List.not_mem_nil _)
  · intro hm
    simp only [List.mem_cons] at hm
    rcases hm with hm | hm
    · exact h5 (hm ▸ (by decide : Char.toNat '\n' = 10))
    · exact absurd hm (List.not_mem_nil _)

theorem nl_not_mem_escapeJson (s : Str) : '\n' ∉ escapeJson s := by
  unfold escapeJson
  intro hm
  rcases List.mem_flatMap.mp hm with ⟨c, _, hc⟩
  exact nl_not_mem_escChar c hc

theorem nl_not_mem_stringify (v : Json) (hv : ScalarJson v) :
    '\n' ∉ jsonStringify v := by
  rcases hv with ⟨b, rfl⟩ | ⟨s, rfl⟩
  · cases b <;> decide
  · intro hm
    simp only [jsonStringify, List.mem_cons] at hm
    rcases hm with hm | hm
    · exact absurd hm (by decide)
    · rcases List.mem_append.mp hm with hm | hm
      · exact nl_not_mem_escapeJson s hm
      · simp at hm

theorem nl_not_mem_stringifyMembers (ms : List (Str × Json))
    (h : ∀ kv ∈ ms, ScalarJson kv.2) : '\n' ∉ jsonStringifyMembers ms := by
  induction ms with
  | nil => simp [jsonStringifyMembers]
  | cons kv t ih =>
    obtain ⟨k, v⟩ := kv
    cases t with
    | nil =>
      rw [jsonStringifyMembers_single]
      intro hm
      simp only [List.mem_cons] at hm
      rcases hm with hm | hm
      · exact absurd hm (by decide)
      · rcases List.mem_append.mp hm with hm | hm
        · exact nl_not_mem_escapeJson k hm
        · simp only [List.mem_cons] at hm
          rcases hm with hm | hm | hm
          · exact absurd hm (by decide)
          · exact absurd hm (by decide)
          · exact nl_not_mem_stringify v (h (k, v) (by simp)) hm
    | cons m t' =>
      rw [jsonStringifyMembers_cons]
      intro hm
      rcases List.mem_append.mp hm with hm | hm
      · simp only [List.mem_cons] at hm
        rcases hm with hm | hm
        · exact absurd hm (by decide)
        · rcases List.mem_append.mp hm with hm | hm
          · exact nl_not_mem_escapeJson k hm
          · simp only [List.mem_cons] at hm
            rcases hm with hm | hm | hm
            · exact absurd hm (by decide)
            · exact absurd hm (by decide)
            · exact nl_not_mem_stringify v (h (k, v) (by simp)) hm
      · simp only [List.mem_cons] at hm
        rcases hm with hm | hm
        · exact absurd hm (by decide)
        · exact ih (fun kv hkv => h kv (List.mem_cons_of_mem _ hkv)) hm

theorem nl_not_mem_stringifyCellOptions (cd : CodeData)
    (h : ∀ kv ∈ cellFields cd, ScalarJson kv.2) :
    '\n' ∉ stringifyCellOptions cd := by
  unfold stringifyCellOptions
  rw [jsonStringify_obj]
  intro hm
  simp only [List.mem_cons] at hm
  rcases hm with hm | hm
  · exact absurd hm (by decide)
  · rcases List.mem_append.mp hm with hm | hm
    · exact nl_not_mem_stringifyMembers (cellFields cd) h hm
    · simp only [List.mem_cons] at hm
      rcases hm with hm | hm
      · exact absurd hm (by decide)
      · exact absurd hm (List.not_mem_nil _)

/-- The language tag the renderer writes into the fence. -/
def tagOf (cd : CodeData) : Str := jsToString (convertCodeModeToMdJ cd.codeMode)

/-- The capture triple the global regex scan produces for one rendered
`codeTool` block: the metadata-comment group, the tag group and the lazily
matched content (the value plus the newline before the closing fence). -/
def scanEntry (cd : CodeData) : Option Str × Option Str × Str :=
  (some (stringifyCellOptions cd), some (tagOf cd), cd.value ++ ['\n'])

/-- The conditions under which the scan recovers a rendered block exactly:
a value with no three-backtick run, a nonempty word-character string code
mode, and schema-typed metadata fields (so the stringified comment has no
newline). -/
def ScanSafe (cd : CodeData) : Prop :=
  hasTripleTick cd.value = false ∧
  (∃ m, cd.codeMode = .str m ∧ m ≠ [] ∧ ∀ c ∈ m, isWordChar c = true) ∧
  ScalarJson cd.pinCode ∧ ScalarJson cd.hide ∧
  (cd.dname = none ∨ ∃ ds, cd.dname = some (.str ds))

theorem cellFields_scalar (cd : CodeData) (h : ScanSafe cd) :
    ∀ kv ∈ cellFields cd, ScalarJson kv.2 := by
  obtain ⟨_, ⟨m, hm, _, _⟩, hpin, hhide, hdn⟩ := h
  intro kv hkv
  unfold cellFields at hkv
  rcases hdn with hdn | ⟨ds, hdn⟩ <;> rw [hdn] at hkv <;>
    simp only [List.mem_cons, List.nil_append, List.cons_append,
      List.not_mem_nil, or_false] at hkv
  · rcases hkv with rfl | rfl | rfl
    · exact hpin
    · exact Or.inr ⟨m, hm⟩
    · exact hhide
  · rcases hkv with rfl | rfl | rfl | rfl
    · exact hpin
    · exact Or.inr ⟨ds, rfl⟩
    · exact Or.inr ⟨m, hm⟩
    · exact hhide

theorem convertCodeModeToMd_word (m : Str) (hne : m ≠ [])
    (hw : ∀ c ∈ m, isWordChar c = true) :
    convertCodeModeToMd m ≠ [] ∧ ∀ c ∈ convertCodeModeToMd m, isWordChar c = true := by
  unfold convertCodeModeToMd
  split_ifs with h
  · exact ⟨by decide, by decide⟩
  · exact ⟨hne, hw⟩

theorem tagOf_spec (cd : CodeData) (m : Str) (hm : cd.codeMode = .str m) :
    tagOf cd = convertCodeModeToMd m := by
  unfold tagOf
  rw [hm]
  rw [show convertCodeModeToMdJ (Json.str m) = .str (convertCodeModeToMd m) from rfl]
  simp [jsToString]

theorem matchFenceAt_shape (tag v s : Str)
    (htag : ∀ c ∈ tag, isWordChar c = true) (htne : tag ≠ [])
    (hv : hasTripleTick v = false) :
    matchFenceAt ('`' :: '`' :: '`' ::
        (tag ++ '\n' :: (v ++ '\n' :: '`' :: '`' :: '`' :: s))) =
      some (some tag, v ++ ['\n'], s) := by
  have htw := takeWhile_word_tag tag (v ++ '\n' :: '`' :: '`' :: '`' :: s) htag
  have hdw := dropWhile_word_tag tag (v ++ '\n' :: '`' :: '`' :: '`' :: s) htag
  have hsplit : splitAtTriple (v ++ '\n' :: '`' :: '`' :: '`' :: s) =
      some (v ++ ['\n'], s) := by
    have hsh : v ++ '\n' :: '`' :: '`' :: '`' :: s =
        (v ++ ['\n']) ++ '`' :: '`' :: '`' :: s := by simp
    rw [hsh]
    exact splitAtTriple_exact (v ++ ['\n']) s (hasTripleTick_value_tail v hv)
  rw [matchFenceAt.eq_def]
  simp only [htw, hdw, hsplit]
  simp [htne]

theorem matchBlockAt_render (cd : CodeData) (s : Str)
    (hnl : '\n' ∉ stringifyCellOptions cd)
    (htag : ∀ c ∈ tagOf cd, isWordChar c = true) (htne : tagOf cd ≠ [])
    (hv : hasTripleTick cd.value = false) :
    matchBlockAt (renderCodeTool cd ++ s) =
      some (some (stringifyCellOptions cd), some (tagOf cd),
        cd.value ++ ['\n'], s) := by
  have hsh : renderCodeTool cd ++ s =
      '<' :: '!' :: '-' :: '-' ::
        (stringifyCellOptions cd ++ '-' :: '-' :: '>' :: '\n' ::
          ('`' :: '`' :: '`' ::
            (tagOf cd ++ '\n' ::
              (cd.value ++ '\n' :: '`' :: '`' :: '`' :: s)))) := by
    unfold renderCodeTool tagOf
    simp
  have hcom := matchCommentAt_shape (stringifyCellOptions cd)
    ('`' :: '`' :: '`' ::
      (tagOf cd ++ '\n' :: (cd.value ++ '\n' :: '`' :: '`' :: '`' :: s))) hnl
  have hfence := matchFenceAt_shape (tagOf cd) cd.value s htag htne hv
  rw [hsh]
  unfold matchBlockAt
  simp only [hcom, hfence]

theorem matchBlockAt_nl (xs : Str) : matchBlockAt ('\n' :: xs) = none := rfl

theorem scanBlocksFuel_nil (f : Nat) : scanBlocksFuel f [] = [] := by
  cases f <;> rfl

theorem scanBlocksFuel_step_some (f : Nat) (input : Str)
    (com tag : Option Str) (content rest : Str) (hne : input ≠ [])
    (h : matchBlockAt input = some (com, tag, content, rest)) :
    scanBlocksFuel (f + 1) input =
      (com, tag, content) :: scanBlocksFuel f rest := by
  cases input with
  | nil => exact absurd rfl hne
  | cons c cs =>
    rw [show f + 1 = Nat.succ f from rfl, scanBlocksFuel.eq_def]
    simp only [h]

theorem scanBlocksFuel_step_none (f : Nat) (c : Char) (cs : Str)
    (h : matchBlockAt (c :: cs) = none) :
    scanBlocksFuel (f + 1) (c :: cs) = scanBlocksFuel f cs := by
  rw [show f + 1 = Nat.succ f from rfl, scanBlocksFuel.eq_def]
  simp only [h]

theorem renderCodeTool_ne_nil (cd : CodeData) : renderCodeTool cd ≠ [] := by
  unfold renderCodeTool
  simp

theorem ScanSafe_shape (cd : CodeData) (h : ScanSafe cd) :
    '\n' ∉ stringifyCellOptions cd ∧
    (∀ c ∈ tagOf cd, isWordChar c = true) ∧ tagOf cd ≠ [] ∧
    hasTripleTick cd.value = false := by
  obtain ⟨hv, ⟨m, hm, hmne, hmw⟩, _, _, _⟩ := id h
  have htag := tagOf_spec cd m hm
  have hword := convertCodeModeToMd_word m hmne hmw
  exact ⟨nl_not_mem_stringifyCellOptions cd (cellFields_scalar cd h),
    by rw [htag]; exact hword.2, by rw [htag]; exact hword.1, hv⟩

theorem scanBlocksFuel_renderList (bs : List CodeData)
    (hs : ∀ cd ∈ bs, ScanSafe cd) :
    ∀ fuel, (joinSep ['\n', '\n'] (bs.map renderCodeTool)).length ≤ fuel →
      scanBlocksFuel fuel (joinSep ['\n', '\n'] (bs.map renderCodeTool)) =
        bs.map scanEntry := by
  induction bs with
  | nil =>
    intro fuel _
    exact scanBlocksFuel_nil fuel
  | cons cd t ih =>
    intro fuel hfuel
    obtain ⟨hnl, htag, htne, hv⟩ := ScanSafe_shape cd (hs cd (List.mem_cons_self cd t))
    cases t with
    | nil =>
      have hj : joinSep ['\n', '\n'] ((cd :: []).map renderCodeTool) =
          renderCodeTool cd := by simp [joinSep]
      rw [hj] at hfuel ⊢
      have hlen : 1 ≤ (renderCodeTool cd).length :=
        List.length_pos.mpr (renderCodeTool_ne_nil cd)
      cases fuel with
      | zero => omega
      | succ f =>
        have hmatch : matchBlockAt (renderCodeTool cd) =
            some (some (stringifyCellOptions cd), some (tagOf cd),
              cd.value ++ ['\n'], []) := by
          rw [show renderCodeTool cd = renderCodeTool cd ++ [] by simp]
          exact matchBlockAt_render cd [] hnl htag htne hv
        rw [scanBlocksFuel_step_some f _ _ _ _ _ (renderCodeTool_ne_nil cd) hmatch,
          scanBlocksFuel_nil f]
        rfl
    | cons cd2 t' =>
      have hj : joinSep ['\n', '\n'] ((cd :: cd2 :: t').map renderCodeTool) =
          renderCodeTool cd ++
            ('\n' :: '\n' :: joinSep ['\n', '\n'] ((cd2 :: t').map renderCodeTool)) := by
        simp [joinSep]
      set J := joinSep ['\n', '\n'] ((cd2 :: t').map renderCodeTool) with hJ
      rw [hj] at hfuel ⊢
      have hlenR : 1 ≤ (renderCodeTool cd).length :=
        List.length_pos.mpr (renderCodeTool_ne_nil cd)
      have hlen : (renderCodeTool cd ++ ('\n' :: '\n' :: J)).length =
          (renderCodeTool cd).length + (J.length + 2) := by
        simp
      rcases fuel with _ | _ | _ | fuel
      · omega
      · rw [hlen] at hfuel; omega
      · rw [hlen] at hfuel; omega
      · have hmatch := matchBlockAt_render cd ('\n' :: '\n' :: J) hnl htag htne hv
        have hne : renderCodeTool cd ++ ('\n' :: '\n' :: J) ≠ [] := by
          simp [renderCodeTool_ne_nil cd]
        rw [scanBlocksFuel_step_some (fuel + 2) _ _ _ _ _ hne hmatch,
          scanBlocksFuel_step_none (fuel + 1) '\n' ('\n' :: J) (matchBlockAt_nl _),
          scanBlocksFuel_step_none fuel '\n' J (matchBlockAt_nl _)]
        rw [ih (fun c hc => hs c (List.mem_cons_of_mem cd hc)) fuel
          (by rw [hlen] at hfuel; omega)]
        rfl

theorem scanBlocks_renderList (bs : List CodeData)
    (hs : ∀ cd ∈ bs, ScanSafe cd) :
    scanBlocks (joinSep ['\n', '\n'] (bs.map renderCodeTool)) =
      bs.map scanEntry := by
  unfold scanBlocks
  exact scanBlocksFuel_renderList bs hs _ (Nat.le_refl _)

theorem jsProp_obj (fields : List (Str × Json)) (k : Str) :
    jsProp (Json.obj fields) k = .ok (jlookup k fields) := rfl

theorem jlookup_cellFields_pinCode (cd : CodeData) :
    jlookup ("pinCode".toList) (cellFields cd) = some cd.pinCode := by
  unfold cellFields
  simp [jlookup]

theorem jlookup_cellFields_dname (cd : CodeData) :
    jlookup ("dname".toList) (cellFields cd) = cd.dname := by
  unfold cellFields
  cases hd : cd.dname <;> simp [jlookup]

theorem jlookup_cellFields_codeMode (cd : CodeData) :
    jlookup ("codeMode".toList) (cellFields cd) = some cd.codeMode := by
  unfold cellFields
  cases hd : cd.dname <;> simp [jlookup]

theorem jlookup_cellFields_hide (cd : CodeData) :
    jlookup ("hide".toList) (cellFields cd) = some cd.hide := by
  unfold cellFields
  cases hd : cd.dname <;> simp [jlookup]

/-- The mode a rendered fence tag decodes back to: through the alias table
in both directions. -/
def decodedCodeMode (m : Str) : Str :=
  convertCodeModeMdToGrove (convertCodeModeToMd m)

theorem decodedCodeMode_ne_nil (m : Str) (h : m ≠ []) :
    decodedCodeMode m ≠ [] := by
  unfold decodedCodeMode convertCodeModeToMd
  split_ifs with h1
  · decide
  · unfold convertCodeModeMdToGrove
    split_ifs with h2
    · decide
    · exact h

theorem resolveCodeMode_render (m : Str) (hne : m ≠ []) :
    resolveCodeMode (some (convertCodeModeToMd m)) (some (.str m)) =
      .str (decodedCodeMode m) := by
  have hg : convertCodeModeMdToGrove (convertCodeModeToMd m) ≠ [] :=
    decodedCodeMode_ne_nil m hne
  unfold resolveCodeMode decodedCodeMode
  simp [hg]

theorem jsNullish_some_scalar (v : Json) (d : Json) (h : ScalarJson v) :
    jsNullish (some v) d = v := by
  rcases h with ⟨b, rfl⟩ | ⟨s, rfl⟩ <;> rfl

theorem jsNullish_none_eq (d : Json) : jsNullish none d = d := rfl

theorem jsTrim_append_nl (v : Str) : jsTrim (v ++ ['\n']) = jsTrim v := by
  unfold jsTrim
  by_cases h : v.dropWhile jsWs = []
  · rw [dropWhile_append_of_nil jsWs v ['\n'] h, h]
    rfl
  · obtain ⟨d, w, hd⟩ : ∃ d w, v.dropWhile jsWs = d :: w := by
      cases hdw : v.dropWhile jsWs with
      | nil => exact absurd hdw h
      | cons d w => exact ⟨d, w, rfl⟩
    rw [dropWhile_append_of_ne_nil jsWs v ['\n'] d w hd, hd]
    have h1 : (d :: (w ++ ['\n'])).reverse = '\n' :: (w.reverse ++ [d]) := by
      simp
    have h2 : (d :: w).reverse = w.reverse ++ [d] := by simp
    rw [show d :: w ++ ['\n'] = d :: (w ++ ['\n']) from rfl, h1, h2,
      List.dropWhile_cons]
    rw [if_pos (by decide : jsWs '\n' = true)]

/-- What one scanned code block decodes to: a `codeTool` block whose value
is the trimmed content, whose scalar metadata fields survive unchanged,
whose code mode went through the alias table twice, and whose `dname` is
kept when the original had one (and freshly generated otherwise). -/
def DecodesTo (cd : CodeData) (b : Block) : Prop :=
  ∃ cd', b = codeToolBlock cd' ∧
    cd'.value = jsTrim cd.value ∧
    cd'.pinCode = cd.pinCode ∧
    (∀ m, cd.codeMode = .str m → cd'.codeMode = .str (decodedCodeMode m)) ∧
    cd'.hide = cd.hide ∧
    (∀ d, cd.dname = some d → cd'.dname = some d)

theorem mkBlocks_scanEntries (uuid : Nat → Str) (bs : List CodeData)
    (hs : ∀ cd ∈ bs, ScanSafe cd) :
    ∀ n, ∃ bl, mkBlocks uuid (bs.map scanEntry) n = .ok bl ∧
      List.Forall₂ DecodesTo bs bl := by
  induction bs with
  | nil => exact fun n => ⟨[], rfl, List.Forall₂.nil⟩
  | cons cd t ih =>
    intro n
    obtain ⟨hv, ⟨m, hm, hmne, hmw⟩, hpin, hhide, hdn⟩ :=
      hs cd (List.mem_cons_self cd t)
    have hdn' : cd.dname = none ∨ ∃ d, cd.dname = some d ∧ ScalarJson d := by
      rcases hdn with h | ⟨ds, h⟩
      · exact Or.inl h
      · exact Or.inr ⟨.str ds, h, Or.inr ⟨ds, rfl⟩⟩
    have hco : parseCellOptions (some (stringifyCellOptions cd)) =
        Json.obj (cellFields cd) :=
      parseCellOptions_stringify cd hpin (Or.inr ⟨m, hm⟩) hhide hdn'
    have hmap : (cd :: t).map scanEntry =
        (some (stringifyCellOptions cd), some (tagOf cd), cd.value ++ ['\n']) ::
          t.map scanEntry := rfl
    have hih := ih (fun c hc => hs c (List.mem_cons_of_mem cd hc))
    have hrcm : resolveCodeMode (some (tagOf cd)) (some cd.codeMode) =
        .str (decodedCodeMode m) := by
      rw [tagOf_spec cd m hm, hm]
      exact resolveCodeMode_render m hmne
    rcases hdn with hdncase | ⟨ds, hdncase⟩
    · -- dname absent: the counter advances and a uuid is generated
      obtain ⟨bl', hbl', hfa⟩ := hih (n + 1)
      refine ⟨codeToolBlock
          { value := jsTrim (cd.value ++ ['\n'])
            pinCode := cd.pinCode
            dname := some (.str (uuid n))
            codeMode := .str (decodedCodeMode m)
            hide := cd.hide } :: bl', ?_, List.Forall₂.cons ?_ hfa⟩
      · rw [hmap]
        simp only [mkBlocks, hco, jsProp_obj, jlookup_cellFields_pinCode,
          jlookup_cellFields_dname, jlookup_cellFields_codeMode,
          jlookup_cellFields_hide, hdncase, hrcm,
          jsNullish_some_scalar cd.pinCode (Json.jbool false) hpin,
          jsNullish_some_scalar cd.hide (Json.jbool false) hhide,
          hbl', codeToolBlock, jsNullish_none_eq, if_true, if_false]
      · refine ⟨_, rfl, jsTrim_append_nl cd.value, rfl, ?_, rfl, ?_⟩
        · intro m' hm'
          rw [hm] at hm'
          obtain rfl := Json.str.inj hm'
          rfl
        · intro d hd
          rw [hdncase] at hd
          exact absurd hd (by simp)
    · -- dname present and a string: kept, no uuid consumed
      obtain ⟨bl', hbl', hfa⟩ := hih n
      refine ⟨codeToolBlock
          { value := jsTrim (cd.value ++ ['\n'])
            pinCode := cd.pinCode
            dname := some (.str ds)
            codeMode := .str (decodedCodeMode m)
            hide := cd.hide } :: bl', ?_, List.Forall₂.cons ?_ hfa⟩
      · rw [hmap]
        simp only [mkBlocks, hco, jsProp_obj, jlookup_cellFields_pinCode,
          jlookup_cellFields_dname, jlookup_cellFields_codeMode,
          jlookup_cellFields_hide, hdncase, hrcm,
          jsNullish_some_scalar cd.pinCode (Json.jbool false) hpin,
          jsNullish_some_scalar cd.hide (Json.jbool false) hhide,
          jsNullish_some_scalar (Json.str ds) (Json.str (uuid n))
            (Or.inr ⟨ds, rfl⟩),
          hbl', codeToolBlock, if_true, if_false, Bool.false_eq_true]
      · refine ⟨_, rfl, jsTrim_append_nl cd.value, rfl, ?_, rfl, ?_⟩
        · intro m' hm'
          rw [hm] at hm'
          obtain rfl := Json.str.inj hm'
          rfl
        · intro d hd
          rw [hdncase] at hd
          obtain rfl := Option.some.inj hd
          rfl

theorem renderBlock_codeTool (cd : CodeData) :
    renderBlock (codeToolBlock cd) = .ok (some (renderCodeTool cd)) := rfl

theorem convertGroveToMd_codeDoc (ver : Str) (bs : List CodeData) :
    convertGroveToMd (mkCodeDoc ver bs) =
      .ok (joinSep ['\n', '\n'] (bs.map renderCodeTool)) := by
  have hmap : (bs.map codeToolBlock).mapM renderBlock =
      .ok (bs.map (fun cd => some (renderCodeTool cd))) := by
    induction bs with
    | nil => rfl
    | cons cd t ih =>
      rw [List.map_cons, List.mapM_cons, renderBlock_codeTool, ih]
      rfl
  have hfm : (bs.map (fun cd => some (renderCodeTool cd))).filterMap id =
      bs.map renderCodeTool := by
    clear hmap
    induction bs with
    | nil => rfl
    | cons cd t ih => simp only [List.map_cons, List.filterMap_cons, id, ih]
  have hfil : (bs.map renderCodeTool).filter (fun s => s ≠ []) =
      bs.map renderCodeTool := by
    rw [List.filter_eq_self]
    intro a ha
    obtain ⟨cd, _, rfl⟩ := List.mem_map.mp ha
    simp [renderCodeTool_ne_nil cd]
  unfold convertGroveToMd mkCodeDoc
  rw [show ({ blocks := bs.map codeToolBlock, version := ver } : Grove).blocks =
    bs.map codeToolBlock from rfl]
  simp only [hmap]
  rw [hfm, hfil]

theorem wfCodeData_ScanSafe (cd : CodeData) (h : wfCodeData cd = true) :
    ScanSafe cd := by
  obtain ⟨hv, _, ⟨m, hm, hmne, hmw, _⟩, ⟨pb, hpb⟩, ⟨hb, hhb⟩, hdn⟩ :=
    wfCodeData_spec cd h
  exact ⟨hv, ⟨m, hm, hmne, hmw⟩, Or.inl ⟨pb, hpb⟩, Or.inl ⟨hb, hhb⟩, hdn⟩

/-- What the claim's round-trip preserves: the block decodes to a
`codeTool` block whose `value`, `pinCode`, `codeMode` and `hide` equal the
original's, and whose `dname` equals the original's whenever the original
had one (an absent `dname` comes back freshly generated). -/
def RoundtripsTo (cd : CodeData) (b : Block) : Prop :=
  ∃ cd', b = codeToolBlock cd' ∧
    cd'.value = cd.value ∧ cd'.pinCode = cd.pinCode ∧
    cd'.codeMode = cd.codeMode ∧ cd'.hide = cd.hide ∧
    (∀ d, cd.dname = some d → cd'.dname = some d)

theorem DecodesTo_RoundtripsTo (cd : CodeData) (b : Block)
    (hwf : wfCodeData cd = true) (h : DecodesTo cd b) : RoundtripsTo cd b := by
  obtain ⟨_, htrim, ⟨m, hm, _, _, hmjs⟩, _, _, _⟩ := wfCodeData_spec cd hwf
  obtain ⟨cd', rfl, hval, hpin, hcm, hhide, hdn⟩ := h
  refine ⟨cd', rfl, ?_, hpin, ?_, hhide, hdn⟩
  · rw [hval, htrim]
  · rw [hcm m hm, hm]
    unfold decodedCodeMode
    rw [codeModeAliasRoundtrip m hmjs]

theorem Forall₂_decode_roundtrip (l : List CodeData) :
    ∀ bl : List Block, (∀ cd ∈ l, wfCodeData cd = true) →
      List.Forall₂ DecodesTo l bl → List.Forall₂ RoundtripsTo l bl := by
  induction l with
  | nil =>
    intro bl _ h
    cases h
    exact List.Forall₂.nil
  | cons cd t ih =>
    intro bl hw h
    cases h with
    | cons hd htl =>
      exact List.Forall₂.cons
        (DecodesTo_RoundtripsTo cd _ (hw cd (List.mem_cons_self cd t)) hd)
        (ih _ (fun c hc => hw c (List.mem_cons_of_mem cd hc)) htl)

/-- C1: converting a Grove document made of well-formed `codeTool` blocks to
markdown and the markdown back to a Grove document succeeds and reproduces
every block: the decoded document has one `codeTool` block per original with
the same `value`, `pinCode`, `codeMode` and `hide`, and the same `dname`
whenever the original carried one (an absent `dname` is freshly generated).
Well-formed (`wfCodeData`) means: the value holds no three-backtick run and
is trim-stable, the code mode is a nonempty word-character string other than
the alias image `js`, and `pinCode`/`hide`/`dname` have their schema types.
The mode restriction is necessary: `convertRoundtrip_counterexample` shows a
`codeMode` of `js` comes back as `javascript2`. -/
theorem convertGroveToMd_convertMdToGrove_roundtrip (uuid : Nat → Str)
    (ver : Str) (bs : List CodeData)
    (hwf : ∀ cd ∈ bs, wfCodeData cd = true) :
    ∃ md g, convertGroveToMd (mkCodeDoc ver bs) = .ok md ∧
      convertMdToGrove uuid md = .ok g ∧
      List.Forall₂ RoundtripsTo bs g.blocks := by
  have hs : ∀ cd ∈ bs, ScanSafe cd :=
    fun cd hc => wfCodeData_ScanSafe cd (hwf cd hc)
  obtain ⟨bl, hbl, hfa⟩ := mkBlocks_scanEntries uuid bs hs 0
  refine ⟨joinSep ['\n', '\n'] (bs.map renderCodeTool),
    { blocks := bl, version := groveUploadVersion },
    convertGroveToMd_codeDoc ver bs, ?_, ?_⟩
  · unfold convertMdToGrove
    rw [scanBlocks_renderList bs hs, hbl]
  · exact Forall₂_decode_roundtrip bs bl hwf hfa

/-- A concrete well-formed code block for the round-trip witness. -/
def c1WfCodeData : CodeData :=
  { value := "x".toList
    pinCode := .jbool false
    dname := some (.str ("d".toList))
    codeMode := .str ("python".toList)
    hide := .jbool true }

/-- Witness for C1's round-trip at one concrete well-formed block. -/
theorem convertGroveToMd_convertMdToGrove_roundtrip_witness :
    (∀ cd ∈ [c1WfCodeData], wfCodeData cd = true) ∧
    (∃ md g,
      convertGroveToMd (mkCodeDoc ("2.19.1".toList) [c1WfCodeData]) = .ok md ∧
      convertMdToGrove (fun _ => ['u']) md = .ok g ∧
      List.Forall₂ RoundtripsTo [c1WfCodeData] g.blocks) :=
  ⟨by decide, convertGroveToMd_convertMdToGrove_roundtrip (fun _ => ['u'])
    ("2.19.1".toList) [c1WfCodeData] (by decide)⟩

/-- Counterexample for C1 as literally stated: a document whose single code
block has `codeMode = "js"` (and a plain one-character value) encodes to
markdown fine, but decoding that markdown yields a block whose `codeMode` is
`javascript2` — the fence tag `js` maps back through the alias table — which
differs from the original `js`. -/
theorem convertRoundtrip_counterexample :
    convertGroveToMd (mkCodeDoc ("2.19.1".toList) [c1JsCodeData]) =
      .ok (renderCodeTool c1JsCodeData) ∧
    (convertMdToGrove (fun _ => ['u']) (renderCodeTool c1JsCodeData)).map
        (fun g => g.blocks.map blockCodeMode) =
      .ok [some (Json.str ("javascript2".toList))] ∧
    Json.str ("javascript2".toList) ≠ c1JsCodeData.codeMode := by
  have hs : ∀ cd ∈ [c1JsCodeData], ScanSafe cd := by
    intro cd hc
    rw [List.mem_singleton] at hc
    subst hc
    exact ⟨by decide, ⟨"js".toList, rfl, by decide, by decide⟩,
      Or.inl ⟨false, rfl⟩, Or.inl ⟨false, rfl⟩,
      Or.inr ⟨"d".toList, rfl⟩⟩
  refine ⟨?_, ?_, ?_⟩
  · rw [convertGroveToMd_codeDoc]
    rfl
  · have hscan : scanBlocks (renderCodeTool c1JsCodeData) =
        [c1JsCodeData].map scanEntry := by
      have hj : joinSep ['\n', '\n'] ([c1JsCodeData].map renderCodeTool) =
          renderCodeTool c1JsCodeData := by simp [joinSep]
      rw [← hj]
      exact scanBlocks_renderList [c1JsCodeData] hs
    obtain ⟨bl, hbl, hfa⟩ := mkBlocks_scanEntries (fun _ => ['u']) [c1JsCodeData] hs 0
    cases hfa with
    | cons hd htl =>
      cases htl
      obtain ⟨cd', rfl, hval, hpin, hcm, hhide, hdn⟩ := hd
      have hcm' : cd'.codeMode = Json.str ("javascript2".toList) := by
        rw [hcm ("js".toList) rfl]
        rw [show decodedCodeMode ("js".toList) = "javascript2".toList by decide]
      unfold convertMdToGrove
      rw [hscan, hbl]
      simp only [Except.map, blockCodeMode, codeToolBlock, List.map_cons,
        List.map_nil]
      simp [hcm']
  · intro h
    exact absurd (Json.str.inj h) (by decide)
